import Mathlib

/-!
# reading-time: word counting and reading-time estimation

A shallow embedding of `reading_time.go` (package `readingtime`) and theorems about it.

Conventions of the embedding:

* a Go `string` is the list of its bytes, a `byte` is a `Fin 256`;
* a Go `int` is a mathematical integer; the places where the 64-bit range matters
  (conversions from `float64`) check the range explicitly;
* indexing `text[i]` outside `0 .. len(text)-1` is the run-time panic `index out of range`,
  the outcome `Outcome.panic`;
* the loops of `Estimate` are recursive functions over an iteration budget; `Estimate` gives
  every loop the budget `len(text) + 1`, and the theorems show that this budget is never used up;
* `float64` arithmetic is IEEE-754 binary64 with round-to-nearest, ties-to-even; a finite value
  is kept as a pair `m, e` standing for `m * 2^e`.
* the indices read by the loops are listed by copies of the loops that carry the list of
  their reads (`skipLeadingReads` and the like), shown to end as the loops themselves do.
-/

namespace ReadingTime

/-! ## Data model -/

/-- A Go `byte`. -/
abbrev Byte := Fin 256

/-- The type `WordBoundFunc`: tells whether a byte is a word bound. -/
abbrev WordBoundFunc := Byte → Bool

/-- The constant `defaultWordsPerMinute`. -/
def defaultWordsPerMinute : Int := 200

/-- The variable `defaultWordBoundFunc`: `b == ' ' || b == '\n' || b == '\r' || b == '\t'`. -/
def defaultWordBoundFunc : WordBoundFunc :=
  fun b => b == 32 || b == 10 || b == 13 || b == 9

/-- The struct `Options`. -/
structure Options where
  WordsPerMinute : Int
  WordBound : WordBoundFunc

/-- The type `Option` of the source, `func(opts *Options)`: the update it performs on the
options it is given. -/
abbrev OptionFn := Options → Options

/-- The function `WordsPerMinute`: the option that assigns the field `WordsPerMinute`. -/
def WordsPerMinute (wordsPerMinute : Int) : OptionFn :=
  fun opts => { opts with WordsPerMinute := wordsPerMinute }

/-- The struct `Result`; `Duration` is a `time.Duration`, a number of nanoseconds. -/
structure Result where
  Text : String
  Duration : Int
  Words : Int
  deriving DecidableEq

/-- The constant `time.Minute`, in nanoseconds. -/
def minute : Int := 60000000000

/-- How a run of the code ends: with a value, with the run-time panic `index out of range`,
or (in the embedding only) with the iteration budget of a loop used up. -/
inductive Outcome (α : Type) where
  | done (a : α)
  | panic
  | outOfFuel
  deriving DecidableEq

/-! ## float64 -/

/-- A `float64`. `finite m e` is the number `m * 2^e`. The sign of a zero is not kept: the
only divisor of the program comes from an `int` and is never `-0`, and the conversions to
`int` send both zeros to `0`. -/
inductive F64 where
  | finite (m : Int) (e : Int)
  | inf (neg : Bool)
  | nan
  deriving DecidableEq

/-- The number of binary digits of `n`, computed with the budget `fuel` (`n` itself is enough). -/
def bitLength : Nat → Nat → Nat
  | 0, _ => 0
  | fuel + 1, n => if n = 0 then 0 else bitLength fuel (n / 2) + 1

/-- The integer `⌊log₂ (n / d)⌋`, for positive `n` and `d`. -/
def floorLog2 (n d : Nat) : Int :=
  let c : Int := (bitLength n n : Int) - (bitLength d d : Int)
  if d * 2 ^ c.toNat ≤ n * 2 ^ (-c).toNat then c else c - 1

/-- The integer nearest to `n / d`, the even one when two are equally near. -/
def roundNearestEven (n d : Nat) : Nat :=
  let q := n / d
  let r := n % d
  if 2 * r < d then q else if d < 2 * r then q + 1 else if q % 2 = 0 then q else q + 1

/-- The exponent of the unit in the last place of the binary64 numbers around `n / d`:
53 significant bits, and never below the subnormal exponent `-1074`. -/
def ulpExp (n d : Nat) : Int := max (floorLog2 n d - 52) (-1074)

namespace F64

/-- The binary64 number nearest to the rational `n / d` (`d` positive), ties to even;
infinite when the rounded magnitude reaches `2^1024` (which needs an exponent of at least
`971`, the significand being at most `2^53`). -/
def round (n : Int) (d : Nat) : F64 :=
  if n = 0 then finite 0 0
  else
    let u := ulpExp n.natAbs d
    let m := roundNearestEven (n.natAbs * 2 ^ (-u).toNat) (d * 2 ^ u.toNat)
    if 971 ≤ u ∧ 2 ^ 1024 ≤ m * 2 ^ u.toNat then inf (decide (n < 0))
    else finite (if n < 0 then -(m : Int) else (m : Int)) u

/-- The conversion `float64(z)` of an `int`. -/
def ofInt (z : Int) : F64 := round z 1

/-- The quotient `x / y` of two `float64`; the divisor zero is `+0`. -/
def div : F64 → F64 → F64
  | nan, _ => nan
  | _, nan => nan
  | inf _, inf _ => nan
  | inf s, finite m _ => inf (s != decide (m < 0))
  | finite _ _, inf _ => finite 0 0
  | finite m1 e1, finite m2 e2 =>
    if m2 = 0 then (if m1 = 0 then nan else inf (decide (m1 < 0)))
    else round (m1 * m2.sign * 2 ^ (e1 - e2).toNat) (m2.natAbs * 2 ^ (e2 - e1).toNat)

/-- The product `x * y` of two `float64`. -/
def mul : F64 → F64 → F64
  | nan, _ => nan
  | _, nan => nan
  | inf s, inf t => inf (s != t)
  | inf s, finite m _ => if m = 0 then nan else inf (s != decide (m < 0))
  | finite m _, inf s => if m = 0 then nan else inf (s != decide (m < 0))
  | finite m1 e1, finite m2 e2 =>
    round (m1 * m2 * 2 ^ (e1 + e2).toNat) (2 ^ (-(e1 + e2)).toNat)

/-- The function `math.Ceil`: the least integral value not below `x`; infinities and NaN
are returned as they are. -/
def ceil : F64 → F64
  | finite m e => if 0 ≤ e then finite m e else finite (-((-m) / 2 ^ (-e).toNat)) 0
  | x => x

/-- The conversion of a `float64` to a 64-bit `int`: the fraction is discarded (truncation
towards zero). When the truncated value is not a 64-bit integer, or `x` is infinite or NaN,
the Go specification leaves the result to the implementation: it is `impl x`. -/
def toInt (impl : F64 → Int) (x : F64) : Int :=
  match x with
  | finite m e =>
    let t := if 0 ≤ e then m * 2 ^ e.toNat else Int.tdiv m (2 ^ (-e).toNat)
    if -2 ^ 63 ≤ t ∧ t < 2 ^ 63 then t else impl x
  | _ => impl x

/-- The result of an out-of-range conversion on amd64 (the "integer indefinite" value). -/
def amd64 : F64 → Int := fun _ => -2 ^ 63

end F64

/-! ## Estimate -/

/-- The read `text[i]`: `none` stands for the panic `index out of range`. -/
def byteAt (text : List Byte) (i : Int) : Option Byte :=
  if i < 0 then none else text[i.toNat]?

/-- The loop `for op.WordBound(text[start]) { start++ }` (lines 78-80), entered with the
cursor `start`. -/
def skipLeading (bound : WordBoundFunc) (text : List Byte) : Nat → Int → Outcome Int
  | 0, _ => .outOfFuel
  | fuel + 1, start =>
    match byteAt text start with
    | none => .panic
    | some b => if bound b then skipLeading bound text fuel (start + 1) else .done start

/-- The loop `for op.WordBound(text[end]) { end-- }` (lines 81-83), entered with the
cursor `end`. -/
def skipTrailing (bound : WordBoundFunc) (text : List Byte) : Nat → Int → Outcome Int
  | 0, _ => .outOfFuel
  | fuel + 1, last =>
    match byteAt text last with
    | none => .panic
    | some b => if bound b then skipTrailing bound text fuel (last - 1) else .done last

/-- The loop `for i <= end && !op.WordBound(text[i]) { i++ }` (lines 87-89). -/
def skipWord (bound : WordBoundFunc) (text : List Byte) (last : Int) : Nat → Int → Outcome Int
  | 0, _ => .outOfFuel
  | fuel + 1, i =>
    if i ≤ last then
      match byteAt text i with
      | none => .panic
      | some b => if !bound b then skipWord bound text last fuel (i + 1) else .done i
    else .done i

/-- The loop `for i <= end && op.WordBound(text[i]) { i++ }` (lines 93-95). -/
def skipBounds (bound : WordBoundFunc) (text : List Byte) (last : Int) : Nat → Int → Outcome Int
  | 0, _ => .outOfFuel
  | fuel + 1, i =>
    if i ≤ last then
      match byteAt text i with
      | none => .panic
      | some b => if bound b then skipBounds bound text last fuel (i + 1) else .done i
    else .done i

/-- The loop `for i := start; i <= end; { ... }` (lines 86-96), entered with the cursor `i`
and the counter `words`; `inner` is the budget given to each inner loop. -/
def countWords (bound : WordBoundFunc) (text : List Byte) (last : Int) (inner : Nat) :
    Nat → Int → Int → Outcome Int
  | 0, _, _ => .outOfFuel
  | fuel + 1, i, words =>
    if i ≤ last then
      match skipWord bound text last inner i with
      | .done i1 =>
        match skipBounds bound text last inner i1 with
        | .done i2 => countWords bound text last inner fuel i2 (words + 1)
        | .panic => .panic
        | .outOfFuel => .outOfFuel
      | .panic => .panic
      | .outOfFuel => .outOfFuel
    else .done words

/-- The reading time stats (lines 98-106): `minutes`, `duration` and the `Result`. -/
def readingStats (impl : F64 → Int) (words wordsPerMinute : Int) : Result :=
  let minutes := F64.ceil (F64.div (F64.ofInt words) (F64.ofInt wordsPerMinute))
  let duration := F64.toInt impl (F64.mul (F64.ceil minutes) (F64.ofInt minute))
  { Text := toString (F64.toInt impl minutes) ++ " min read"
    Duration := duration
    Words := words }

/-- The options `Estimate` works with (lines 62-71): the defaults, updated by each option in
turn. -/
def applyOptions (opts : List OptionFn) : Options :=
  opts.foldl (fun op opt => opt op)
    { WordsPerMinute := defaultWordsPerMinute, WordBound := defaultWordBoundFunc }

/-- The function `Estimate`. `impl` gives the results of the `float64` to `int` conversions
that the Go specification leaves to the implementation. -/
def Estimate (impl : F64 → Int) (text : List Byte) (opts : List OptionFn) : Outcome Result :=
  if text.length = 0 then
    .done { Text := "0 min read", Duration := 0, Words := 0 }
  else
    let op := applyOptions opts
    let fuel := text.length + 1
    match skipLeading op.WordBound text fuel 0 with
    | .done start =>
      match skipTrailing op.WordBound text fuel ((text.length : Int) - 1) with
      | .done last =>
        match countWords op.WordBound text last fuel fuel start 0 with
        | .done words => .done (readingStats impl words op.WordsPerMinute)
        | .panic => .panic
        | .outOfFuel => .outOfFuel
      | .panic => .panic
      | .outOfFuel => .outOfFuel
    | .panic => .panic
    | .outOfFuel => .outOfFuel

/-- The bytes of a text written in ASCII. -/
def ascii (s : String) : List Byte := s.toList.map (fun c => Fin.ofNat c.toNat)

/-- The text of `n` words `a`, each followed by a space. -/
def repeatWord : Nat → List Byte
  | 0 => []
  | n + 1 => 97 :: 32 :: repeatWord n

/-! ## Words of a text -/

/-- Byte `k` of `text` exists and is not a word bound. -/
def InWord (bound : WordBoundFunc) (text : List Byte) (k : Nat) : Prop :=
  (text[k]?).map bound = some false

/-- Byte `k` of `text` exists and is a word bound. -/
def IsBound (bound : WordBoundFunc) (text : List Byte) (k : Nat) : Prop :=
  (text[k]?).map bound = some true

instance (bound : WordBoundFunc) (text : List Byte) (k : Nat) :
    Decidable (InWord bound text k) := by
  unfold InWord; infer_instance

instance (bound : WordBoundFunc) (text : List Byte) (k : Nat) :
    Decidable (IsBound bound text k) := by
  unfold IsBound; infer_instance

/-- Bytes `i .. j` of `text` are a word: a run of bytes that are not word bounds, which is
maximal, that is, it can be extended neither to the left nor to the right. -/
def IsWord (bound : WordBoundFunc) (text : List Byte) (i j : Nat) : Prop :=
  i ≤ j ∧ (∀ k, k ≤ j → i ≤ k → InWord bound text k) ∧
    (i = 0 ∨ IsBound bound text (i - 1)) ∧
    (j + 1 = text.length ∨ IsBound bound text (j + 1))

instance (bound : WordBoundFunc) (text : List Byte) (i j : Nat) :
    Decidable (IsWord bound text i j) := by
  unfold IsWord; infer_instance

/-- The number of words of `text`: the number of pairs `i, j` of positions such that bytes
`i .. j` are a maximal run of bytes that are not word bounds. -/
def wordCount (bound : WordBoundFunc) (text : List Byte) : Nat :=
  ((Finset.range text.length ×ˢ Finset.range text.length).filter
    (fun ij => IsWord bound text ij.1 ij.2)).card

/-- Byte `k` begins a word: it is not a word bound, and it is the first byte of the text or
follows a word bound. -/
def StartsWord (bound : WordBoundFunc) (text : List Byte) (k : Nat) : Prop :=
  InWord bound text k ∧ (k = 0 ∨ IsBound bound text (k - 1))

instance (bound : WordBoundFunc) (text : List Byte) (k : Nat) :
    Decidable (StartsWord bound text k) := by
  unfold StartsWord; infer_instance

/-- The number of bytes below `m` that begin a word. -/
def startsBelow (bound : WordBoundFunc) (text : List Byte) (m : Nat) : Nat :=
  Nat.count (StartsWord bound text) m

/-- The number of bytes of a text that begin a word. -/
def wordStarts (bound : WordBoundFunc) (text : List Byte) : Nat :=
  startsBelow bound text text.length

/-- The number of bytes of a text that begin a word, read from left to right; `prev` tells
whether a word may begin at the first byte (the byte before it, if any, is a word bound). -/
def runs (bound : WordBoundFunc) : Bool → List Byte → Nat
  | _, [] => 0
  | prev, b :: rest => (if prev && !bound b then 1 else 0) + runs bound (bound b) rest

/-- Whether a word may begin right after the text `a`. -/
def endsOpen (bound : WordBoundFunc) (prev : Bool) (a : List Byte) : Bool :=
  match a.getLast? with
  | none => prev
  | some b => bound b

/-- Byte `k` begins a word, when `prev` tells whether a word may begin at byte `0`. -/
def StartsWordFrom (bound : WordBoundFunc) (prev : Bool) (text : List Byte) (k : Nat) : Prop :=
  InWord bound text k ∧ (if k = 0 then prev = true else IsBound bound text (k - 1))

instance (bound : WordBoundFunc) (prev : Bool) (text : List Byte) (k : Nat) :
    Decidable (StartsWordFrom bound prev text k) := by
  unfold StartsWordFrom; infer_instance

/-- The `float64` `x` is finite and its value is the integer `z`. -/
def F64.IsInt (x : F64) (z : Int) : Prop :=
  ∃ m e : Int, x = .finite m e ∧ (m : ℚ) * (2 : ℚ) ^ e = (z : ℚ)

/-! ## The index reads of `Estimate` -/

/-- Puts the index `i` in front of the list of indices read by a run. -/
def withRead {α : Type} (i : Int) (r : Outcome α × List Int) : Outcome α × List Int :=
  (r.1, i :: r.2)

/-- The loop `skipLeading`, together with the list of the indices `i` of its reads
`text[i]`, in the order of the reads. -/
def skipLeadingReads (bound : WordBoundFunc) (text : List Byte) :
    Nat → Int → Outcome Int × List Int
  | 0, _ => (.outOfFuel, [])
  | fuel + 1, start =>
    withRead start
      (match byteAt text start with
      | none => (.panic, [])
      | some b =>
        if bound b then skipLeadingReads bound text fuel (start + 1) else (.done start, []))

/-- The loop `skipTrailing`, together with the list of the indices it reads. -/
def skipTrailingReads (bound : WordBoundFunc) (text : List Byte) :
    Nat → Int → Outcome Int × List Int
  | 0, _ => (.outOfFuel, [])
  | fuel + 1, last =>
    withRead last
      (match byteAt text last with
      | none => (.panic, [])
      | some b =>
        if bound b then skipTrailingReads bound text fuel (last - 1) else (.done last, []))

/-- The loop `skipWord`, together with the list of the indices it reads. -/
def skipWordReads (bound : WordBoundFunc) (text : List Byte) (last : Int) :
    Nat → Int → Outcome Int × List Int
  | 0, _ => (.outOfFuel, [])
  | fuel + 1, i =>
    if i ≤ last then
      withRead i
        (match byteAt text i with
        | none => (.panic, [])
        | some b =>
          if !bound b then skipWordReads bound text last fuel (i + 1) else (.done i, []))
    else (.done i, [])

/-- The loop `skipBounds`, together with the list of the indices it reads. -/
def skipBoundsReads (bound : WordBoundFunc) (text : List Byte) (last : Int) :
    Nat → Int → Outcome Int × List Int
  | 0, _ => (.outOfFuel, [])
  | fuel + 1, i =>
    if i ≤ last then
      withRead i
        (match byteAt text i with
        | none => (.panic, [])
        | some b =>
          if bound b then skipBoundsReads bound text last fuel (i + 1) else (.done i, []))
    else (.done i, [])

/-- The loop `countWords`, together with the list of the indices it reads. -/
def countWordsReads (bound : WordBoundFunc) (text : List Byte) (last : Int) (inner : Nat) :
    Nat → Int → Int → Outcome Int × List Int
  | 0, _, _ => (.outOfFuel, [])
  | fuel + 1, i, words =>
    if i ≤ last then
      match skipWordReads bound text last inner i with
      | (.done i1, t1) =>
        match skipBoundsReads bound text last inner i1 with
        | (.done i2, t2) =>
          ((countWordsReads bound text last inner fuel i2 (words + 1)).1,
            t1 ++ t2 ++ (countWordsReads bound text last inner fuel i2 (words + 1)).2)
        | (.panic, t2) => (.panic, t1 ++ t2)
        | (.outOfFuel, t2) => (.outOfFuel, t1 ++ t2)
      | (.panic, t1) => (.panic, t1)
      | (.outOfFuel, t1) => (.outOfFuel, t1)
    else (.done words, [])

/-- The word count of `Estimate` on a text that is not empty (lines 73-96), together with
the list of the indices `i` of all the reads `text[i]` of the three loops. -/
def countReads (text : List Byte) (opts : List OptionFn) : Outcome Int × List Int :=
  let op := applyOptions opts
  let fuel := text.length + 1
  match skipLeadingReads op.WordBound text fuel 0 with
  | (.done start, t1) =>
    match skipTrailingReads op.WordBound text fuel ((text.length : Int) - 1) with
    | (.done last, t2) =>
      ((countWordsReads op.WordBound text last fuel fuel start 0).1,
        t1 ++ t2 ++ (countWordsReads op.WordBound text last fuel fuel start 0).2)
    | (.panic, t2) => (.panic, t1 ++ t2)
    | (.outOfFuel, t2) => (.outOfFuel, t1 ++ t2)
  | (.panic, t1) => (.panic, t1)
  | (.outOfFuel, t1) => (.outOfFuel, t1)

/-- The list of the indices read by `Estimate`: none on the empty text. -/
def estimateReads (text : List Byte) (opts : List OptionFn) : List Int :=
  if text.length = 0 then [] else (countReads text opts).2

/-! ## Texts of words -/

/-- The byte is one of `a-z`, `A-Z`, `0-9` (the `charset` of the tests). -/
def IsAlnum (b : Byte) : Prop :=
  (97 ≤ b.val ∧ b.val ≤ 122) ∨ (65 ≤ b.val ∧ b.val ≤ 90) ∨ (48 ≤ b.val ∧ b.val ≤ 57)

instance (b : Byte) : Decidable (IsAlnum b) := by
  unfold IsAlnum; infer_instance

/-- The text of the test helper `generateText`, for the words it drew: each word followed
by one space. -/
def spacedText : List (List Byte) → List Byte
  | [] => []
  | w :: ws => w ++ 32 :: spacedText ws

/-! # Theorems -/

/-! ## The embedding on known values -/

section KnownValues

/-- The quotient `1.0 / 3.0` is the binary64 number `0x3FD5555555555555`. -/
theorem div_one_three :
    F64.div (F64.ofInt 1) (F64.ofInt 3) = .finite 6004799503160661 (-54) := by
  decide

/-- The quotient `1.0 / 10.0` is the binary64 number `0x3FB999999999999A`. -/
theorem div_one_ten :
    F64.div (F64.ofInt 1) (F64.ofInt 10) = .finite 7205759403792794 (-56) := by
  decide

/-- The integer `2^53 + 1` is halfway between two binary64 numbers and goes to the even
one, `2^53`; `2^53 + 3` goes to `2^53 + 4`. -/
theorem ofInt_ties :
    F64.ofInt (2 ^ 53 + 1) = .finite (2 ^ 52) 1 ∧ F64.ofInt (2 ^ 53 + 3) = .finite (2 ^ 52 + 2) 1 := by
  decide

set_option maxRecDepth 100000 in
/-- From `2^53` words on the `float64` quotient is no longer exact: for `2^54 + 2` words at
`2^30` words per minute the integer ceiling is `16777217`, and the minutes of the code are
`16777216`. -/
theorem readingStats_inexact :
    ((2 : Int) ^ 54 + 2 + 2 ^ 30 - 1) / 2 ^ 30 = 16777217 ∧
    (readingStats F64.amd64 (2 ^ 54 + 2) (2 ^ 30)).Text = "16777216 min read" := by
  decide

/-- The test `should handle text containing multiple successive whitespaces`. -/
theorem test_successive_whitespaces :
    Estimate F64.amd64 (ascii "word  word    word") [] =
      .done { Text := "1 min read", Duration := minute, Words := 3 } := by
  decide

/-- The test `should handle text containing one word correctly`. -/
theorem test_one_word :
    Estimate F64.amd64 (ascii "0") [] =
      .done { Text := "1 min read", Duration := minute, Words := 1 } := by
  decide

/-- The reference count of words on the text of the first of these tests. -/
theorem wordCount_successive_whitespaces :
    wordCount defaultWordBoundFunc (ascii "word  word    word") = 3 := by
  decide

end KnownValues

/-! ## The loops of `Estimate` -/

section Loops

variable (bound : WordBoundFunc) (text : List Byte)

theorem byteAt_natCast (k : Nat) : byteAt text (k : Int) = text[k]? := by
  simp [byteAt]

theorem byteAt_length : byteAt text (text.length : Int) = none := by
  simp [byteAt]

theorem inWord_or_isBound {k : Nat} (h : k < text.length) :
    InWord bound text k ∨ IsBound bound text k := by
  unfold InWord IsBound
  rw [List.getElem?_eq_getElem h]
  cases bound text[k] <;> simp

section

variable {bound : WordBoundFunc} {text : List Byte}

theorem inWord_lt {k : Nat} (h : InWord bound text k) : k < text.length := by
  unfold InWord at h
  by_contra hk
  rw [List.getElem?_eq_none (by omega)] at h
  simp at h

theorem isBound_lt {k : Nat} (h : IsBound bound text k) : k < text.length := by
  unfold IsBound at h
  by_contra hk
  rw [List.getElem?_eq_none (by omega)] at h
  simp at h

theorem inWord_not_isBound {k : Nat} (h : InWord bound text k) : ¬ IsBound bound text k := by
  unfold InWord at h
  unfold IsBound
  rw [h]; simp

theorem inWord_byte {k : Nat} (h : InWord bound text k) :
    ∃ b, text[k]? = some b ∧ bound b = false := by
  unfold InWord at h
  cases hb : text[k]? with
  | none => rw [hb] at h; simp at h
  | some b => rw [hb] at h; exact ⟨b, rfl, by simpa using h⟩

theorem isBound_byte {k : Nat} (h : IsBound bound text k) :
    ∃ b, text[k]? = some b ∧ bound b = true := by
  unfold IsBound at h
  cases hb : text[k]? with
  | none => rw [hb] at h; simp at h
  | some b => rw [hb] at h; exact ⟨b, rfl, by simpa using h⟩

end

/-- The leading loop stops at the first byte that is not a word bound. -/
theorem skipLeading_done (fuel i s : Nat) (his : i ≤ s)
    (hb : ∀ k, i ≤ k → k < s → IsBound bound text k) (hs : InWord bound text s)
    (hf : s - i < fuel) : skipLeading bound text fuel (i : Int) = .done (s : Int) := by
  induction fuel generalizing i with
  | zero => omega
  | succ fuel ih =>
    unfold skipLeading
    rw [byteAt_natCast]
    rcases Nat.eq_or_lt_of_le his with h | h
    · subst h
      obtain ⟨b, hb1, hb2⟩ := inWord_byte hs
      simp [hb1, hb2]
    · obtain ⟨b, hb1, hb2⟩ := isBound_byte (hb i le_rfl h)
      simp only [hb1, hb2, if_true]
      have := ih (i + 1) (by omega) (fun k h1 h2 => hb k (by omega) h2) (by omega)
      simpa using this

/-- On a text whose bytes from `i` on are all word bounds, the leading loop reads
`text[len(text)]` and panics. -/
theorem skipLeading_panic (fuel i : Nat) (hi : i ≤ text.length)
    (hb : ∀ k, i ≤ k → k < text.length → IsBound bound text k)
    (hf : text.length - i < fuel) : skipLeading bound text fuel (i : Int) = .panic := by
  induction fuel generalizing i with
  | zero => omega
  | succ fuel ih =>
    unfold skipLeading
    rw [byteAt_natCast]
    rcases Nat.eq_or_lt_of_le hi with h | h
    · subst h
      simp
    · obtain ⟨b, hb1, hb2⟩ := isBound_byte (hb i le_rfl h)
      simp only [hb1, hb2, if_true]
      have := ih (i + 1) (by omega) (fun k h1 h2 => hb k (by omega) h2) (by omega)
      simpa using this

/-- The trailing loop stops at the last byte that is not a word bound. -/
theorem skipTrailing_done (fuel l e : Nat) (hel : e ≤ l)
    (hb : ∀ k, e < k → k ≤ l → IsBound bound text k) (he : InWord bound text e)
    (hf : l - e < fuel) : skipTrailing bound text fuel (l : Int) = .done (e : Int) := by
  induction fuel generalizing l with
  | zero => omega
  | succ fuel ih =>
    unfold skipTrailing
    rw [byteAt_natCast]
    rcases Nat.eq_or_lt_of_le hel with h | h
    · subst h
      obtain ⟨b, hb1, hb2⟩ := inWord_byte he
      simp [hb1, hb2]
    · obtain ⟨b, hb1, hb2⟩ := isBound_byte (hb l h le_rfl)
      simp only [hb1, hb2, if_true]
      have := ih (l - 1) (by omega) (fun k h1 h2 => hb k h1 (by omega)) (by omega)
      have hc : ((l - 1 : Nat) : Int) = (l : Int) - 1 := by omega
      rw [hc] at this
      exact this

/-- The second inner loop is the first one run with the complemented predicate. -/
theorem skipBounds_eq_skipWord (last : Int) (fuel : Nat) (i : Int) :
    skipBounds bound text last fuel i = skipWord (fun b => !bound b) text last fuel i := by
  induction fuel generalizing i with
  | zero => rfl
  | succ fuel ih =>
    unfold skipBounds skipWord
    split
    · cases byteAt text i with
      | none => rfl
      | some b => simp [ih]
    · rfl

/-- The first inner loop stops at the first word bound at or after `i`, or behind `last`. -/
theorem skipWord_done (last fuel i j : Nat) (hij : i ≤ j) (hj : j ≤ last + 1)
    (hw : ∀ k, i ≤ k → k < j → InWord bound text k)
    (hstop : j = last + 1 ∨ IsBound bound text j) (hf : j - i < fuel) :
    skipWord bound text (last : Int) fuel (i : Int) = .done (j : Int) := by
  induction fuel generalizing i with
  | zero => omega
  | succ fuel ih =>
    unfold skipWord
    rw [byteAt_natCast]
    rcases Nat.eq_or_lt_of_le hij with h | h
    · subst h
      rcases hstop with h1 | h1
      · have : ¬ ((i : Int) ≤ (last : Int)) := by omega
        simp [this]
      · obtain ⟨b, hb1, hb2⟩ := isBound_byte h1
        simp [hb1, hb2]
    · obtain ⟨b, hb1, hb2⟩ := inWord_byte (hw i le_rfl h)
      have hle : (i : Int) ≤ (last : Int) := by omega
      simp only [hle, hb1, hb2, if_true, Bool.not_false]
      have := ih (i + 1) (by omega) (fun k h1 h2 => hw k (by omega) h2) (by omega)
      simpa using this

theorem inWord_not_iff (k : Nat) :
    InWord (fun b => !bound b) text k ↔ IsBound bound text k := by
  unfold InWord IsBound
  cases text[k]? with
  | none => simp
  | some b => cases h : bound b <;> simp [h]

theorem isBound_not_iff (k : Nat) :
    IsBound (fun b => !bound b) text k ↔ InWord bound text k := by
  unfold InWord IsBound
  cases text[k]? with
  | none => simp
  | some b => cases h : bound b <;> simp [h]

/-- The second inner loop stops at the first byte at or after `i` that is not a word bound,
or behind `last`. -/
theorem skipBounds_done (last fuel i j : Nat) (hij : i ≤ j) (hj : j ≤ last + 1)
    (hb : ∀ k, i ≤ k → k < j → IsBound bound text k)
    (hstop : j = last + 1 ∨ InWord bound text j) (hf : j - i < fuel) :
    skipBounds bound text (last : Int) fuel (i : Int) = .done (j : Int) := by
  rw [skipBounds_eq_skipWord]
  refine skipWord_done _ text last fuel i j hij hj ?_ ?_ hf
  · intro k h1 h2
    exact (inWord_not_iff bound text k).2 (hb k h1 h2)
  · rcases hstop with h | h
    · exact Or.inl h
    · exact Or.inr ((isBound_not_iff bound text j).2 h)

/-- From `i` on there is a first word bound, or none up to `last`. -/
theorem exists_word_end (last i : Nat) (hi : i ≤ last + 1) (hl : last < text.length) :
    ∃ j, i ≤ j ∧ j ≤ last + 1 ∧ (∀ k, i ≤ k → k < j → InWord bound text k) ∧
      (j = last + 1 ∨ IsBound bound text j) := by
  generalize h : last + 1 - i = d
  induction d generalizing i with
  | zero => exact ⟨i, le_rfl, hi, fun k h1 h2 => by omega, Or.inl (by omega)⟩
  | succ d ih =>
    rcases @inWord_or_isBound bound text i (by omega) with hw | hb
    · obtain ⟨j, h1, h2, h3, h4⟩ := ih (i + 1) (by omega) (by omega)
      refine ⟨j, by omega, h2, fun k hk1 hk2 => ?_, h4⟩
      rcases Nat.eq_or_lt_of_le hk1 with e | e
      · subst e; exact hw
      · exact h3 k (by omega) hk2
    · exact ⟨i, le_rfl, hi, fun k h1 h2 => by omega, Or.inr hb⟩

/-- From `i` on there is a first byte that is not a word bound, or none up to `last`. -/
theorem exists_bounds_end (last i : Nat) (hi : i ≤ last + 1) (hl : last < text.length) :
    ∃ j, i ≤ j ∧ j ≤ last + 1 ∧ (∀ k, i ≤ k → k < j → IsBound bound text k) ∧
      (j = last + 1 ∨ InWord bound text j) := by
  obtain ⟨j, h1, h2, h3, h4⟩ := exists_word_end (fun b => !bound b) text last i hi hl
  refine ⟨j, h1, h2, fun k hk1 hk2 => (inWord_not_iff bound text k).1 (h3 k hk1 hk2), ?_⟩
  rcases h4 with h | h
  · exact Or.inl h
  · exact Or.inr ((isBound_not_iff bound text j).1 h)

end Loops

/-! ## Counting words -/

section Counting

variable (bound : WordBoundFunc) (text : List Byte)

theorem startsBelow_succ (m : Nat) :
    startsBelow bound text (m + 1) =
      startsBelow bound text m + (if StartsWord bound text m then 1 else 0) := by
  unfold startsBelow
  exact Nat.count_succ _ _

theorem startsBelow_mono {a b : Nat} (h : a ≤ b) :
    startsBelow bound text a ≤ startsBelow bound text b :=
  Nat.count_monotone _ h

theorem startsBelow_eq_of_none (a b : Nat) (hab : a ≤ b)
    (h : ∀ k, a ≤ k → k < b → ¬ StartsWord bound text k) :
    startsBelow bound text b = startsBelow bound text a := by
  induction b with
  | zero =>
    have : a = 0 := by omega
    subst this; rfl
  | succ b ih =>
    rcases Nat.eq_or_lt_of_le hab with e | e
    · subst e; rfl
    · rw [startsBelow_succ, if_neg (h b (by omega) (by omega))]
      exact ih (by omega) (fun k h1 h2 => h k h1 (by omega))

/-- The counting loop, entered at the beginning of a word (or behind `last`), adds the
number of words that begin between the cursor and `last`. -/
theorem countWords_done (last inner fuel i : Nat) (words : Int)
    (hi : i ≤ last + 1) (hl : last < text.length)
    (hstart : i ≤ last → StartsWord bound text i)
    (hinner : last + 1 - i < inner) (hf : last + 1 - i < fuel) :
    countWords bound text (last : Int) inner fuel (i : Int) words =
      .done (words + ((startsBelow bound text (last + 1) - startsBelow bound text i : Nat) : Int)) := by
  induction fuel generalizing i words with
  | zero => omega
  | succ fuel ih =>
    unfold countWords
    by_cases hle : i ≤ last
    · have hle2 : (i : Int) ≤ (last : Int) := by omega
      have hsw := hstart hle
      obtain ⟨i1, a1, a2, a3, a4⟩ := exists_word_end bound text last i hi hl
      have hlt : i < i1 := by
        rcases Nat.eq_or_lt_of_le a1 with e | e
        · subst e
          rcases a4 with h | h
          · omega
          · exact absurd h (inWord_not_isBound hsw.1)
        · exact e
      obtain ⟨i2, b1, b2, b3, b4⟩ := exists_bounds_end bound text last i1 a2 hl
      rw [if_pos hle2, skipWord_done bound text last inner i i1 a1 a2 a3 a4 (by omega)]
      simp only
      rw [skipBounds_done bound text last inner i1 i2 b1 b2 b3 b4 (by omega)]
      simp only
      have hnext : i2 ≤ last → StartsWord bound text i2 := by
        intro h2
        rcases b4 with h | h
        · omega
        · refine ⟨h, Or.inr ?_⟩
          rcases Nat.eq_or_lt_of_le b1 with e | e
          · subst e
            rcases a4 with h' | h'
            · omega
            · exact absurd h' (inWord_not_isBound h)
          · exact b3 (i2 - 1) (by omega) (by omega)
      rw [ih i2 (words + 1) b2 hnext (by omega) (by omega)]
      have hc : startsBelow bound text i2 = startsBelow bound text i + 1 := by
        have h1 : startsBelow bound text i2 = startsBelow bound text (i + 1) := by
          apply startsBelow_eq_of_none bound text (i + 1) i2 (by omega)
          intro k hk1 hk2 hk
          by_cases hki : k < i1
          · rcases hk.2 with e | e
            · omega
            · exact inWord_not_isBound (a3 (k - 1) (by omega) (by omega)) e
          · exact inWord_not_isBound hk.1 (b3 k (by omega) hk2)
        rw [h1, startsBelow_succ, if_pos hsw]
      have hm := startsBelow_mono bound text b2
      congr 1
      omega
    · have hle2 : ¬ ((i : Int) ≤ (last : Int)) := by omega
      have e : i = last + 1 := by omega
      rw [if_neg hle2, e]
      simp

end Counting

/-! ## The outcome of `Estimate` -/

section Outcomes

variable (bound : WordBoundFunc) (text : List Byte)

theorem exists_first_inWord (h : ∃ k, InWord bound text k) :
    ∃ s, InWord bound text s ∧ ∀ k, k < s → IsBound bound text k := by
  classical
  refine ⟨Nat.find h, Nat.find_spec h, fun k hk => ?_⟩
  have hlt : k < text.length := lt_trans hk (inWord_lt (Nat.find_spec h))
  rcases inWord_or_isBound bound text hlt with hw | hb
  · exact absurd hw (Nat.find_min h hk)
  · exact hb

theorem exists_last_inWord (h : ∃ k, InWord bound text k) :
    ∃ e, InWord bound text e ∧ ∀ k, e < k → k < text.length → IsBound bound text k := by
  classical
  obtain ⟨k0, hk0⟩ := h
  have hk0n : k0 ≤ text.length - 1 := by have := inWord_lt hk0; omega
  refine ⟨Nat.findGreatest (InWord bound text) (text.length - 1),
    Nat.findGreatest_spec hk0n hk0, fun k hk hkn => ?_⟩
  rcases inWord_or_isBound bound text hkn with hw | hb
  · exact absurd hw (Nat.findGreatest_is_greatest hk (by omega))
  · exact hb

/-- The word count of the loops of `Estimate` on a text with a byte that is not a word
bound: the three loops end normally, within the budget, with the number of word starts. -/
theorem loops_done (h : ∃ k, InWord bound text k) :
    ∃ s e : Nat, s ≤ e ∧ e < text.length ∧
      InWord bound text s ∧ (∀ k, k < s → IsBound bound text k) ∧
      InWord bound text e ∧ (∀ k, e < k → k < text.length → IsBound bound text k) ∧
      skipLeading bound text (text.length + 1) 0 = .done (s : Int) ∧
      skipTrailing bound text (text.length + 1) ((text.length : Int) - 1) = .done (e : Int) ∧
      countWords bound text (e : Int) (text.length + 1) (text.length + 1) (s : Int) 0 =
        .done ((wordStarts bound text : Nat) : Int) := by
  obtain ⟨s, hs, hsb⟩ := exists_first_inWord bound text h
  obtain ⟨e, he, heb⟩ := exists_last_inWord bound text h
  have hen : e < text.length := inWord_lt he
  have hse : s ≤ e := by
    by_contra hc
    exact inWord_not_isBound he (hsb e (by omega))
  refine ⟨s, e, hse, hen, hs, hsb, he, heb, ?_, ?_, ?_⟩
  · have := skipLeading_done bound text (text.length + 1) 0 s (Nat.zero_le _)
      (fun k _ hk => hsb k hk) hs (by omega)
    simpa using this
  · have := skipTrailing_done bound text (text.length + 1) (text.length - 1) e (by omega)
      (fun k hk1 hk2 => heb k hk1 (by omega)) he (by omega)
    have hc : ((text.length - 1 : Nat) : Int) = (text.length : Int) - 1 := by omega
    rw [hc] at this
    exact this
  · have hstart : s ≤ e → StartsWord bound text s := by
      intro _
      refine ⟨hs, ?_⟩
      rcases Nat.eq_zero_or_pos s with h0 | h0
      · exact Or.inl h0
      · exact Or.inr (hsb (s - 1) (by omega))
    rw [countWords_done bound text e (text.length + 1) (text.length + 1) s 0 (by omega) hen
      hstart (by omega) (by omega)]
    have h1 : startsBelow bound text s = 0 := by
      have := startsBelow_eq_of_none bound text 0 s (Nat.zero_le _)
        (fun k _ hk hsw => inWord_not_isBound hsw.1 (hsb k hk))
      rw [this]; rfl
    have h2 : startsBelow bound text text.length = startsBelow bound text (e + 1) :=
      startsBelow_eq_of_none bound text (e + 1) text.length (by omega)
        (fun k hk1 hk2 hsw => inWord_not_isBound hsw.1 (heb k (by omega) hk2))
    unfold wordStarts
    rw [h1, h2]
    simp

/-- The result of `Estimate` on a text with a byte that is not a word bound. -/
theorem Estimate_of_inWord (impl : F64 → Int) (opts : List OptionFn)
    (h : ∃ k, InWord (applyOptions opts).WordBound text k) :
    Estimate impl text opts =
      .done (readingStats impl (wordStarts (applyOptions opts).WordBound text : Nat)
        (applyOptions opts).WordsPerMinute) := by
  obtain ⟨s, e, _, hen, _, _, _, _, h1, h2, h3⟩ := loops_done _ text h
  have hne : ¬ (text.length = 0) := by omega
  unfold Estimate
  rw [if_neg hne]
  simp only [h1, h2, h3]

/-- The result of `Estimate` on a text that is not empty and has word bounds only: the
leading loop reads `text[len(text)]` and the run panics. -/
theorem Estimate_of_all_bounds (impl : F64 → Int) (opts : List OptionFn)
    (hne : text ≠ [])
    (h : ∀ k, k < text.length → IsBound (applyOptions opts).WordBound text k) :
    Estimate impl text opts = .panic := by
  have hlen : ¬ (text.length = 0) := by
    intro h0
    exact hne (List.length_eq_zero.mp h0)
  unfold Estimate
  rw [if_neg hlen]
  have := skipLeading_panic (applyOptions opts).WordBound text (text.length + 1) 0
    (Nat.zero_le _) (fun k _ hk => h k hk) (by omega)
  simp only [Nat.cast_zero] at this
  simp only [this]

end Outcomes

/-! ## Words as maximal runs -/

section Words

variable (bound : WordBoundFunc) (text : List Byte)

theorem isWord_startsWord {i j : Nat} (h : IsWord bound text i j) : StartsWord bound text i :=
  ⟨h.2.1 i h.1 le_rfl, h.2.2.1⟩

theorem isWord_end_unique {i j j' : Nat} (h : IsWord bound text i j)
    (h' : IsWord bound text i j') : j = j' := by
  by_contra hne
  rcases Nat.lt_or_gt_of_ne hne with hlt | hlt
  · have hw : InWord bound text (j + 1) := h'.2.1 (j + 1) (by omega) (by have := h.1; omega)
    rcases h.2.2.2 with e | e
    · have := inWord_lt hw; omega
    · exact inWord_not_isBound hw e
  · have hw : InWord bound text (j' + 1) := h.2.1 (j' + 1) (by omega) (by have := h'.1; omega)
    rcases h'.2.2.2 with e | e
    · have := inWord_lt hw; omega
    · exact inWord_not_isBound hw e

theorem startsWord_exists_isWord {i : Nat} (h : StartsWord bound text i) :
    ∃ j, j < text.length ∧ IsWord bound text i j := by
  have hi : i < text.length := inWord_lt h.1
  obtain ⟨j, h1, h2, h3, h4⟩ :=
    exists_word_end bound text (text.length - 1) i (by omega) (by omega)
  have hlt : i < j := by
    rcases Nat.eq_or_lt_of_le h1 with e | e
    · subst e
      rcases h4 with h' | h'
      · omega
      · exact absurd h' (inWord_not_isBound h.1)
    · exact e
  refine ⟨j - 1, by omega, by omega, fun k hk1 hk2 => h3 k hk2 (by omega), h.2, ?_⟩
  rcases h4 with h' | h'
  · exact Or.inl (by omega)
  · refine Or.inr ?_
    have e : j - 1 + 1 = j := by omega
    rw [e]; exact h'

/-- Every word has one first byte: there are as many words as bytes that begin a word. -/
theorem wordCount_eq_wordStarts : wordCount bound text = wordStarts bound text := by
  unfold wordCount wordStarts startsBelow
  rw [Nat.count_eq_card_filter_range]
  refine Finset.card_bij (fun ij _ => ij.1) ?_ ?_ ?_
  · intro ij hij
    simp only [Finset.mem_filter, Finset.mem_product, Finset.mem_range] at hij ⊢
    exact ⟨hij.1.1, isWord_startsWord bound text hij.2⟩
  · intro a ha b hb hab
    simp only [Finset.mem_filter, Finset.mem_product, Finset.mem_range] at ha hb
    have h1 : a.1 = b.1 := hab
    have hb2 : IsWord bound text a.1 b.2 := by rw [h1]; exact hb.2
    exact Prod.ext h1 (isWord_end_unique bound text ha.2 hb2)
  · intro i hi
    simp only [Finset.mem_filter, Finset.mem_range] at hi
    obtain ⟨j, hj, hw⟩ := startsWord_exists_isWord bound text hi.2
    refine ⟨(i, j), ?_, rfl⟩
    simp only [Finset.mem_filter, Finset.mem_product, Finset.mem_range]
    exact ⟨⟨hi.1, hj⟩, hw⟩

end Words

/-! ## Word starts, byte by byte -/

section Runs

variable (bound : WordBoundFunc)

theorem count_congr_below (p q : Nat → Prop) [DecidablePred p] [DecidablePred q] (n : Nat)
    (h : ∀ k, k < n → (p k ↔ q k)) : Nat.count p n = Nat.count q n := by
  induction n with
  | zero => simp
  | succ n ih =>
    rw [Nat.count_succ, Nat.count_succ, ih (fun k hk => h k (by omega))]
    by_cases hp : p n
    · rw [if_pos hp, if_pos ((h n (by omega)).1 hp)]
    · rw [if_neg hp, if_neg (fun hq => hp ((h n (by omega)).2 hq))]

theorem count_startsWordFrom (prev : Bool) (text : List Byte) :
    Nat.count (StartsWordFrom bound prev text) text.length = runs bound prev text := by
  induction text generalizing prev with
  | nil => simp [runs]
  | cons b rest ih =>
    rw [List.length_cons, Nat.count_succ', runs, ← ih (bound b)]
    have h1 : Nat.count (fun k => StartsWordFrom bound prev (b :: rest) (k + 1)) rest.length =
        Nat.count (StartsWordFrom bound (bound b) rest) rest.length := by
      apply count_congr_below
      intro k _
      unfold StartsWordFrom InWord IsBound
      cases k with
      | zero => simp
      | succ k => simp
    have h2 : StartsWordFrom bound prev (b :: rest) 0 ↔ (prev && !bound b) = true := by
      unfold StartsWordFrom InWord
      cases prev <;> cases hb : bound b <;> simp [hb]
    rw [h1]
    by_cases hc : (prev && !bound b) = true
    · rw [if_pos (h2.2 hc), if_pos hc]; omega
    · rw [if_neg (fun h => hc (h2.1 h)), if_neg hc]; omega

/-- The number of word starts of a text, read from left to right. -/
theorem wordStarts_eq_runs (text : List Byte) : wordStarts bound text = runs bound true text := by
  rw [← count_startsWordFrom]
  unfold wordStarts startsBelow
  apply count_congr_below
  intro k _
  unfold StartsWord StartsWordFrom
  by_cases hk : k = 0 <;> simp [hk]

theorem runs_append (prev : Bool) (a b : List Byte) :
    runs bound prev (a ++ b) = runs bound prev a + runs bound (endsOpen bound prev a) b := by
  induction a generalizing prev with
  | nil => simp [runs, endsOpen]
  | cons x a ih =>
    rw [List.cons_append, runs, runs, ih]
    have : endsOpen bound (bound x) a = endsOpen bound prev (x :: a) := by
      unfold endsOpen
      cases a with
      | nil => simp
      | cons y a =>
        rw [List.getLast?_cons_cons, List.getLast?_eq_getLast _ (List.cons_ne_nil y a)]
    rw [this]; omega

theorem runs_of_all_bounds (prev : Bool) (s : List Byte) (hs : ∀ b ∈ s, bound b = true) :
    runs bound prev s = 0 := by
  induction s generalizing prev with
  | nil => rfl
  | cons x s ih =>
    have hx : bound x = true := hs x (List.mem_cons_self _ _)
    rw [runs, ih _ (fun b hb => hs b (List.mem_cons_of_mem _ hb))]
    simp [hx]

theorem endsOpen_of_all_bounds (prev : Bool) (s : List Byte) (hs : ∀ b ∈ s, bound b = true)
    (hp : s = [] → prev = true) : endsOpen bound prev s = true := by
  unfold endsOpen
  cases h : s.getLast? with
  | none =>
    simp only
    exact hp (List.getLast?_eq_none_iff.mp h)
  | some b =>
    simp only
    exact hs b (List.mem_of_getLast?_eq_some h)

/-- A text has a byte that is not a word bound, in the two ways of saying it. -/
theorem exists_inWord_iff (text : List Byte) :
    (∃ k, InWord bound text k) ↔ ∃ b ∈ text, bound b = false := by
  constructor
  · rintro ⟨k, hk⟩
    obtain ⟨b, hb1, hb2⟩ := inWord_byte hk
    exact ⟨b, List.getElem?_mem hb1, hb2⟩
  · rintro ⟨b, hb, hb2⟩
    obtain ⟨k, hk, rfl⟩ := List.getElem_of_mem hb
    refine ⟨k, ?_⟩
    unfold InWord
    rw [List.getElem?_eq_getElem hk]
    simp [hb2]

theorem forall_isBound_iff (text : List Byte) :
    (∀ k, k < text.length → IsBound bound text k) ↔ ∀ b ∈ text, bound b = true := by
  constructor
  · intro h b hb
    obtain ⟨k, hk, rfl⟩ := List.getElem_of_mem hb
    have := h k hk
    unfold IsBound at this
    rw [List.getElem?_eq_getElem hk] at this
    simpa using this
  · intro h k hk
    unfold IsBound
    rw [List.getElem?_eq_getElem hk]
    simp [h _ (List.getElem_mem hk)]

end Runs

/-! ## Rounding to binary64 -/

section Rounding

theorem bitLength_spec (fuel n : Nat) (h : n < 2 ^ fuel) (hn : 0 < n) :
    n < 2 ^ bitLength fuel n ∧ 2 ^ bitLength fuel n ≤ 2 * n := by
  induction fuel generalizing n with
  | zero => simp at h; omega
  | succ fuel ih =>
    unfold bitLength
    rw [if_neg (by omega)]
    have h2 : n / 2 < 2 ^ fuel := by
      rw [pow_succ] at h; omega
    rcases Nat.eq_zero_or_pos (n / 2) with h0 | h0
    · have h1 : n = 1 := by omega
      subst h1
      cases fuel <;> simp [bitLength]
    · obtain ⟨a, b⟩ := ih (n / 2) h2 h0
      rw [pow_succ]
      constructor <;> omega

theorem bitLength_self (n : Nat) (hn : 0 < n) :
    n < 2 ^ bitLength n n ∧ 2 ^ bitLength n n ≤ 2 * n :=
  bitLength_spec n n (Nat.lt_two_pow n) hn

theorem two_zpow (c : Int) : (2 : ℚ) ^ c = (2 : ℚ) ^ c.toNat / (2 : ℚ) ^ (-c).toNat := by
  rcases le_total 0 c with h | h
  · have h1 : (-c).toNat = 0 := by omega
    rw [h1, pow_zero, div_one]
    conv_lhs => rw [← Int.toNat_of_nonneg h]
    exact zpow_natCast 2 c.toNat
  · have h1 : c.toNat = 0 := by omega
    have h2 : c = -(((-c).toNat : Nat) : Int) := by omega
    rw [h1, pow_zero]
    conv_lhs => rw [h2]
    rw [zpow_neg, zpow_natCast, one_div]

/-- The rational `n / d` scaled by `2^(-u)`, as the quotient of two naturals. -/
theorem scaled_eq (n d : Nat) (u : Int) :
    ((n * 2 ^ (-u).toNat : Nat) : ℚ) / ((d * 2 ^ u.toNat : Nat) : ℚ) =
      ((n : ℚ) / (d : ℚ)) / (2 : ℚ) ^ u := by
  rw [two_zpow u]
  push_cast
  field_simp

theorem floorLog2_spec (n d : Nat) (hn : 0 < n) (hd : 0 < d) :
    (2 : ℚ) ^ floorLog2 n d ≤ (n : ℚ) / (d : ℚ) ∧
      (n : ℚ) / (d : ℚ) < (2 : ℚ) ^ (floorLog2 n d + 1) := by
  obtain ⟨n1, n2⟩ := bitLength_self n hn
  obtain ⟨d1, d2⟩ := bitLength_self d hd
  have hdq : (0 : ℚ) < (d : ℚ) := by exact_mod_cast hd
  have hnq : (0 : ℚ) < (n : ℚ) := by exact_mod_cast hn
  have n1q : (n : ℚ) < (2 : ℚ) ^ ((bitLength n n : Nat) : Int) := by
    rw [zpow_natCast]; exact_mod_cast n1
  have n2q : (2 : ℚ) ^ ((bitLength n n : Nat) : Int) ≤ 2 * (n : ℚ) := by
    rw [zpow_natCast]; exact_mod_cast n2
  have d1q : (d : ℚ) < (2 : ℚ) ^ ((bitLength d d : Nat) : Int) := by
    rw [zpow_natCast]; exact_mod_cast d1
  have d2q : (2 : ℚ) ^ ((bitLength d d : Nat) : Int) ≤ 2 * (d : ℚ) := by
    rw [zpow_natCast]; exact_mod_cast d2
  have hpos : ∀ k : Int, (0 : ℚ) < (2 : ℚ) ^ k := fun k => zpow_pos (by norm_num) k
  have hsplit : (2 : ℚ) ^ ((bitLength n n : Nat) : Int) =
      (2 : ℚ) ^ ((bitLength n n : Int) - (bitLength d d : Int)) *
        (2 : ℚ) ^ ((bitLength d d : Nat) : Int) := by
    rw [← zpow_add₀ (by norm_num : (2 : ℚ) ≠ 0)]
    congr 1; omega
  have hsucc : ∀ k : Int, (2 : ℚ) ^ (k + 1) = (2 : ℚ) ^ k * 2 := fun k => by
    rw [zpow_add₀ (by norm_num : (2 : ℚ) ≠ 0), zpow_one]
  unfold floorLog2
  simp only
  generalize hc : ((bitLength n n : Int) - (bitLength d d : Int)) = c at hsplit ⊢
  have hC := hpos c
  have hD := hpos ((bitLength d d : Nat) : Int)
  have htest : d * 2 ^ c.toNat ≤ n * 2 ^ (-c).toNat ↔ (2 : ℚ) ^ c ≤ (n : ℚ) / (d : ℚ) := by
    rw [two_zpow c, div_le_div_iff₀ (by positivity) hdq]
    constructor
    · intro h
      have : ((d * 2 ^ c.toNat : Nat) : ℚ) ≤ ((n * 2 ^ (-c).toNat : Nat) : ℚ) := by
        exact_mod_cast h
      push_cast at this
      linarith
    · intro h
      have : ((d * 2 ^ c.toNat : Nat) : ℚ) ≤ ((n * 2 ^ (-c).toNat : Nat) : ℚ) := by
        push_cast
        linarith
      exact_mod_cast this
  split
  · rename_i h
    refine ⟨htest.1 h, ?_⟩
    rw [div_lt_iff₀ hdq, hsucc]
    nlinarith
  · rename_i h
    have h' : (n : ℚ) / (d : ℚ) < (2 : ℚ) ^ c := lt_of_not_le (fun hh => h (htest.2 hh))
    have e : c - 1 + 1 = c := by omega
    rw [e]
    refine ⟨?_, h'⟩
    rw [le_div_iff₀ hdq]
    have h3 := hsucc (c - 1)
    rw [e] at h3
    have hC1 := hpos (c - 1)
    nlinarith

theorem roundNearestEven_le (n d k : Nat) (hd : 0 < d) (h : n ≤ k * d) :
    roundNearestEven n d ≤ k := by
  have hq : n / d ≤ k := Nat.div_le_of_le_mul (by rw [mul_comm]; exact h)
  have hm := Nat.div_add_mod n d
  have hr := Nat.mod_lt n hd
  unfold roundNearestEven
  simp only
  rcases Nat.eq_or_lt_of_le hq with e | e
  · have h0 : n % d = 0 := by
      rw [← e] at h
      have : d * (n / d) = n / d * d := mul_comm _ _
      omega
    rw [if_pos (by omega)]
    exact hq
  · split
    · omega
    · split
      · omega
      · split <;> omega

theorem le_roundNearestEven (n d k : Nat) (hd : 0 < d) (h : k * d ≤ n) :
    k ≤ roundNearestEven n d := by
  have hq : k ≤ n / d := (Nat.le_div_iff_mul_le hd).2 h
  unfold roundNearestEven
  simp only
  split
  · omega
  · split
    · omega
    · split <;> omega

theorem succ_le_roundNearestEven (n d k : Nat) (hd : 0 < d) (h : (2 * k + 1) * d < 2 * n) :
    k + 1 ≤ roundNearestEven n d := by
  have hk : k * d ≤ n := by nlinarith
  have hq : k ≤ n / d := (Nat.le_div_iff_mul_le hd).2 hk
  have hm := Nat.div_add_mod n d
  unfold roundNearestEven
  simp only
  rcases Nat.eq_or_lt_of_le hq with e | e
  · have hr : d < 2 * (n % d) := by
      have : d * (n / d) = k * d := by rw [← e, mul_comm]
      nlinarith
    rw [if_neg (by omega), if_pos hr]
    omega
  · split
    · omega
    · split
      · omega
      · split <;> omega

end Rounding

section RoundSpec

theorem zpow_two_pos (k : Int) : (0 : ℚ) < (2 : ℚ) ^ k := zpow_pos (by norm_num) k

theorem zpow_two_lt {a b : Int} (h : (2 : ℚ) ^ a < (2 : ℚ) ^ b) : a < b :=
  (zpow_lt_zpow_iff_right₀ (by norm_num : (1 : ℚ) < 2)).1 h

/-- The rounding of a positive rational `n / d`, when the result is not infinite. -/
theorem round_pos (n d : Nat) (hn : 0 < n)
    (hfin : ¬ (971 ≤ ulpExp n d ∧
      2 ^ 1024 ≤ roundNearestEven (n * 2 ^ (-ulpExp n d).toNat) (d * 2 ^ (ulpExp n d).toNat) *
        2 ^ (ulpExp n d).toNat)) :
    F64.round (n : Int) d =
      .finite (roundNearestEven (n * 2 ^ (-ulpExp n d).toNat) (d * 2 ^ (ulpExp n d).toNat) : Nat)
        (ulpExp n d) := by
  have h0 : ¬ ((n : Int) = 0) := by omega
  have h1 : ¬ ((n : Int) < 0) := by omega
  unfold F64.round
  rw [if_neg h0]
  simp only [Int.natAbs_ofNat]
  rw [if_neg hfin, if_neg h1]

/-- The exponent chosen for `n / d` lies `52` below its binary logarithm, unless that is
subnormal. -/
theorem ulpExp_bounds (n d : Nat) (hn : 0 < n) (hd : 0 < d) (lo hi : Int)
    (hlo : (2 : ℚ) ^ lo ≤ (n : ℚ) / (d : ℚ)) (hhi : (n : ℚ) / (d : ℚ) < (2 : ℚ) ^ hi) :
    ulpExp n d ≤ max (hi - 53) (-1074) ∧ lo - 52 ≤ ulpExp n d ∧ -1074 ≤ ulpExp n d ∧
      (-1022 ≤ lo → (2 : ℚ) ^ (ulpExp n d + 52) ≤ (n : ℚ) / (d : ℚ)) := by
  obtain ⟨h1, h2⟩ := floorLog2_spec n d hn hd
  have a1 : floorLog2 n d < hi := zpow_two_lt (lt_of_le_of_lt h1 hhi)
  have a2 : lo < floorLog2 n d + 1 := zpow_two_lt (lt_of_le_of_lt hlo h2)
  unfold ulpExp
  refine ⟨by omega, by omega, by omega, fun h => ?_⟩
  have e : max (floorLog2 n d - 52) (-1074) + 52 = floorLog2 n d := by omega
  rw [e]; exact h1

/-- A rational that is a binary64 number (fewer than 53 significant bits, exponent in
range) is rounded to itself. -/
theorem round_exact (n d z : Nat) (k : Int) (hn : 0 < n) (hd : 0 < d) (hz : z < 2 ^ 53)
    (hk : -1074 ≤ k) (hk2 : k ≤ 970) (hx : (n : ℚ) / (d : ℚ) = (z : ℚ) * (2 : ℚ) ^ k) :
    ∃ m : Nat, F64.round (n : Int) d = .finite (m : Int) (ulpExp n d) ∧
      (m : ℚ) * (2 : ℚ) ^ ulpExp n d = (n : ℚ) / (d : ℚ) := by
  have hdq : (0 : ℚ) < (d : ℚ) := by exact_mod_cast hd
  have hnq : (0 : ℚ) < (n : ℚ) := by exact_mod_cast hn
  have hpk := zpow_two_pos k
  have hhi : (n : ℚ) / (d : ℚ) < (2 : ℚ) ^ (k + 53) := by
    rw [hx, zpow_add₀ (by norm_num : (2 : ℚ) ≠ 0), mul_comm ((2 : ℚ) ^ k)]
    have : (z : ℚ) < (2 : ℚ) ^ (53 : Int) := by
      have h53 : (2 : ℚ) ^ (53 : Int) = ((2 ^ 53 : Nat) : ℚ) := by norm_num
      rw [h53]
      exact_mod_cast hz
    exact mul_lt_mul_of_pos_right this hpk
  obtain ⟨hf1, hf2⟩ := floorLog2_spec n d hn hd
  obtain ⟨b1, _, _, _⟩ := ulpExp_bounds n d hn hd (floorLog2 n d) (k + 53) hf1 hhi
  have hu : ulpExp n d ≤ k := by omega
  set u := ulpExp n d with hudef
  have hfin : ¬ (971 ≤ u ∧
      2 ^ 1024 ≤ roundNearestEven (n * 2 ^ (-u).toNat) (d * 2 ^ u.toNat) * 2 ^ u.toNat) := by
    intro h; omega
  -- the scaled rational is the natural number `z * 2^(k-u)`
  have hy : ((n * 2 ^ (-u).toNat : Nat) : ℚ) =
      ((z * 2 ^ (k - u).toNat : Nat) : ℚ) * ((d * 2 ^ u.toNat : Nat) : ℚ) := by
    have hs := scaled_eq n d u
    have hD : (0 : ℚ) < ((d * 2 ^ u.toNat : Nat) : ℚ) := by
      have : 0 < d * 2 ^ u.toNat := Nat.mul_pos hd (by positivity)
      exact_mod_cast this
    rw [div_eq_iff (ne_of_gt hD)] at hs
    have hku : (2 : ℚ) ^ k = (2 : ℚ) ^ (k - u).toNat * (2 : ℚ) ^ u := by
      rw [← zpow_natCast, ← zpow_add₀ (by norm_num : (2 : ℚ) ≠ 0)]
      congr 1; omega
    have hpu := zpow_two_pos u
    have hq : (z : ℚ) * (2 : ℚ) ^ k / (2 : ℚ) ^ u = (z : ℚ) * (2 : ℚ) ^ (k - u).toNat := by
      rw [hku]; field_simp; ring
    rw [hs, hx, hq]
    push_cast
    ring
  have hyN : n * 2 ^ (-u).toNat = (z * 2 ^ (k - u).toNat) * (d * 2 ^ u.toNat) := by
    exact_mod_cast hy
  have hDpos : 0 < d * 2 ^ u.toNat := Nat.mul_pos hd (by positivity)
  have hM : roundNearestEven (n * 2 ^ (-u).toNat) (d * 2 ^ u.toNat) = z * 2 ^ (k - u).toNat :=
    le_antisymm (roundNearestEven_le _ _ _ hDpos (le_of_eq hyN))
      (le_roundNearestEven _ _ _ hDpos (le_of_eq hyN.symm))
  refine ⟨z * 2 ^ (k - u).toNat, ?_, ?_⟩
  · rw [round_pos n d hn hfin, hM]
  · rw [hx]
    have hku : (2 : ℚ) ^ k = (2 : ℚ) ^ (k - u).toNat * (2 : ℚ) ^ u := by
      rw [← zpow_natCast, ← zpow_add₀ (by norm_num : (2 : ℚ) ≠ 0)]
      congr 1; omega
    rw [hku]
    push_cast
    ring

end RoundSpec

section FloatOps

theorem isInt_ceil {x : F64} {z : Int} (h : x.IsInt z) : (F64.ceil x).IsInt z := by
  obtain ⟨m, e, rfl, hv⟩ := h
  have hc : F64.ceil (.finite m e) =
      if 0 ≤ e then .finite m e else .finite (-((-m) / 2 ^ (-e).toNat)) 0 := rfl
  rw [hc]
  by_cases he : 0 ≤ e
  · rw [if_pos he]
    exact ⟨m, e, rfl, hv⟩
  · rw [if_neg he]
    refine ⟨_, 0, rfl, ?_⟩
    have hm : m = z * ((2 ^ (-e).toNat : Nat) : Int) := by
      have h2 : (2 : ℚ) ^ e = 1 / (2 : ℚ) ^ (-e).toNat := by
        rw [two_zpow e]
        have : e.toNat = 0 := by omega
        rw [this, pow_zero]
      rw [h2] at hv
      have hp : (0 : ℚ) < (2 : ℚ) ^ (-e).toNat := by positivity
      field_simp at hv
      have : ((m : Int) : ℚ) = ((z * ((2 ^ (-e).toNat : Nat) : Int) : Int) : ℚ) := by
        push_cast; exact hv
      exact_mod_cast this
    have hP : (0 : Int) < ((2 ^ (-e).toNat : Nat) : Int) := by positivity
    have hdiv : (-m) / (2 : Int) ^ (-e).toNat = -z := by
      have : (-m) = (-z) * ((2 ^ (-e).toNat : Nat) : Int) := by rw [hm]; ring
      rw [this]
      push_cast
      exact Int.mul_ediv_cancel _ (by positivity)
    rw [hdiv]
    simp

theorem isInt_toInt {x : F64} {z : Int} (h : x.IsInt z) (impl : F64 → Int)
    (h1 : -2 ^ 63 ≤ z) (h2 : z < 2 ^ 63) : F64.toInt impl x = z := by
  obtain ⟨m, e, rfl, hv⟩ := h
  have ht : (if 0 ≤ e then m * 2 ^ e.toNat else Int.tdiv m (2 ^ (-e).toNat)) = z := by
    split
    · rename_i he
      have h2 : (2 : ℚ) ^ e = (2 : ℚ) ^ e.toNat := by
        rw [two_zpow e]
        have : (-e).toNat = 0 := by omega
        rw [this, pow_zero, div_one]
      rw [h2] at hv
      have : ((m * 2 ^ e.toNat : Int) : ℚ) = ((z : Int) : ℚ) := by
        push_cast; exact hv
      exact_mod_cast this
    · rename_i he
      have hm : m = z * (2 : Int) ^ (-e).toNat := by
        have h2 : (2 : ℚ) ^ e = 1 / (2 : ℚ) ^ (-e).toNat := by
          rw [two_zpow e]
          have : e.toNat = 0 := by omega
          rw [this, pow_zero]
        rw [h2] at hv
        have hp : (0 : ℚ) < (2 : ℚ) ^ (-e).toNat := by positivity
        field_simp at hv
        have : ((m : Int) : ℚ) = ((z * (2 : Int) ^ (-e).toNat : Int) : ℚ) := by
          push_cast; exact hv
        exact_mod_cast this
      rw [hm]
      exact Int.mul_tdiv_cancel _ (by positivity)
  unfold F64.toInt
  simp only [ht]
  rw [if_pos ⟨h1, h2⟩]

/-- Integers below `2^53` are converted to `float64` without rounding. -/
theorem ofInt_exact (z : Nat) (hz : z < 2 ^ 53) : (F64.ofInt (z : Int)).IsInt (z : Int) := by
  rcases Nat.eq_zero_or_pos z with h0 | h0
  · subst h0
    exact ⟨0, 0, by simp [F64.ofInt, F64.round], by simp⟩
  · obtain ⟨m, h1, h2⟩ := round_exact z 1 z 0 h0 Nat.one_pos hz (by norm_num) (by norm_num)
      (by simp)
    refine ⟨m, _, h1, ?_⟩
    push_cast
    rw [h2]
    simp

end FloatOps

section FloatOps2

/-- A positive 64-bit integer of at least `2^53` is converted to a `float64` that is an
integer between `2^53` and `2^63`. -/
theorem ofInt_large (s : Nat) (h1 : 2 ^ 53 ≤ s) (h2 : s < 2 ^ 63) :
    ∃ v : Nat, (F64.ofInt (s : Int)).IsInt (v : Int) ∧ 2 ^ 53 ≤ v ∧ v ≤ 2 ^ 63 := by
  have hs : 0 < s := lt_of_lt_of_le (by norm_num) h1
  have hlo : (2 : ℚ) ^ (53 : Int) ≤ (s : ℚ) / ((1 : Nat) : ℚ) := by
    have h53 : (2 : ℚ) ^ (53 : Int) = ((2 ^ 53 : Nat) : ℚ) := by norm_num
    rw [h53, Nat.cast_one, div_one]
    exact_mod_cast h1
  have hhi : (s : ℚ) / ((1 : Nat) : ℚ) < (2 : ℚ) ^ (63 : Int) := by
    have h63 : (2 : ℚ) ^ (63 : Int) = ((2 ^ 63 : Nat) : ℚ) := by norm_num
    rw [h63, Nat.cast_one, div_one]
    exact_mod_cast h2
  obtain ⟨b1, b2, _, b4⟩ := ulpExp_bounds s 1 hs Nat.one_pos 53 63 hlo hhi
  have b4 := b4 (by norm_num)
  set u := ulpExp s 1 with hudef
  have hu1 : 1 ≤ u := by omega
  have hu2 : u ≤ 10 := by omega
  have hneg : (-u).toNat = 0 := by omega
  have hfin : ¬ (971 ≤ u ∧
      2 ^ 1024 ≤ roundNearestEven (s * 2 ^ (-u).toNat) (1 * 2 ^ u.toNat) * 2 ^ u.toNat) := by
    intro h; omega
  have hround := round_pos s 1 hs hfin
  rw [hneg, pow_zero, mul_one, one_mul] at hround
  have hD : 0 < 2 ^ u.toNat := by positivity
  have hutn : ((u.toNat : Nat) : Int) = u := Int.toNat_of_nonneg (by omega)
  have hlow : 2 ^ 52 * 2 ^ u.toNat ≤ s := by
    have e : (2 : ℚ) ^ (u + 52) = ((2 ^ 52 * 2 ^ u.toNat : Nat) : ℚ) := by
      have : u + 52 = ((52 + u.toNat : Nat) : Int) := by omega
      rw [this, zpow_natCast, pow_add]
      push_cast; ring
    rw [e, Nat.cast_one, div_one] at b4
    exact_mod_cast b4
  have hupp : s ≤ 2 ^ (63 - u.toNat) * 2 ^ u.toNat := by
    rw [← pow_add]
    have : 63 - u.toNat + u.toNat = 63 := by omega
    rw [this]; omega
  have hM1 := le_roundNearestEven s (2 ^ u.toNat) (2 ^ 52) hD hlow
  have hM2 := roundNearestEven_le s (2 ^ u.toNat) (2 ^ (63 - u.toNat)) hD hupp
  refine ⟨roundNearestEven s (2 ^ u.toNat) * 2 ^ u.toNat, ⟨_, _, hround, ?_⟩, ?_, ?_⟩
  · have : (2 : ℚ) ^ u = (2 : ℚ) ^ u.toNat := by
      conv_lhs => rw [← hutn]
      exact zpow_natCast 2 u.toNat
    rw [this]
    push_cast
    ring
  · have h2u : 2 ≤ 2 ^ u.toNat := by
      have : 1 ≤ u.toNat := by omega
      calc 2 = 2 ^ 1 := by norm_num
        _ ≤ 2 ^ u.toNat := Nat.pow_le_pow_right (by norm_num) this
    calc 2 ^ 53 = 2 ^ 52 * 2 := by norm_num
      _ ≤ roundNearestEven s (2 ^ u.toNat) * 2 ^ u.toNat := Nat.mul_le_mul hM1 h2u
  · calc roundNearestEven s (2 ^ u.toNat) * 2 ^ u.toNat
        ≤ 2 ^ (63 - u.toNat) * 2 ^ u.toNat := Nat.mul_le_mul_right _ hM2
      _ = 2 ^ 63 := by
        rw [← pow_add]
        have : 63 - u.toNat + u.toNat = 63 := by omega
        rw [this]

/-- The conversion `float64(s)` of a positive 64-bit reading speed: an integer `v`, equal to
`s` below `2^53` and at least `2^53` otherwise. -/
theorem ofInt_speed (s : Nat) (h1 : 0 < s) (h2 : s < 2 ^ 63) :
    ∃ v : Nat, (F64.ofInt (s : Int)).IsInt (v : Int) ∧ 0 < v ∧ v ≤ 2 ^ 63 ∧
      (s < 2 ^ 53 → v = s) ∧ (2 ^ 53 ≤ s → 2 ^ 53 ≤ v) := by
  rcases Nat.lt_or_ge s (2 ^ 53) with h | h
  · exact ⟨s, ofInt_exact s h, h1, by omega, fun _ => rfl, fun h' => by omega⟩
  · obtain ⟨v, a, b, c⟩ := ofInt_large s h h2
    exact ⟨v, a, by omega, c, fun h' => by omega, fun _ => b⟩

/-- The quotient of two `float64` with positive integer values is the rounding of the
rational quotient. -/
theorem div_of_isInt (x y : F64) (w v : Nat) (hw : 0 < w) (hv : 0 < v)
    (hx : x.IsInt (w : Int)) (hy : y.IsInt (v : Int)) :
    ∃ n d : Nat, 0 < n ∧ 0 < d ∧ F64.div x y = F64.round (n : Int) d ∧
      (n : ℚ) / (d : ℚ) = (w : ℚ) / (v : ℚ) := by
  obtain ⟨m1, e1, rfl, h1⟩ := hx
  obtain ⟨m2, e2, rfl, h2⟩ := hy
  have hwq : (0 : ℚ) < (w : ℚ) := by exact_mod_cast hw
  have hvq : (0 : ℚ) < (v : ℚ) := by exact_mod_cast hv
  push_cast at h1 h2
  have hm1 : 0 < m1 := by
    have : (0 : ℚ) < (m1 : ℚ) := by
      have := zpow_two_pos e1
      by_contra hc
      have : (m1 : ℚ) * (2 : ℚ) ^ e1 ≤ 0 := mul_nonpos_of_nonpos_of_nonneg (by linarith) (by linarith)
      linarith
    exact_mod_cast this
  have hm2 : 0 < m2 := by
    have : (0 : ℚ) < (m2 : ℚ) := by
      have := zpow_two_pos e2
      by_contra hc
      have : (m2 : ℚ) * (2 : ℚ) ^ e2 ≤ 0 := mul_nonpos_of_nonpos_of_nonneg (by linarith) (by linarith)
      linarith
    exact_mod_cast this
  have hdiv : F64.div (.finite m1 e1) (.finite m2 e2) =
      if m2 = 0 then (if m1 = 0 then .nan else .inf (decide (m1 < 0)))
      else F64.round (m1 * m2.sign * 2 ^ (e1 - e2).toNat) (m2.natAbs * 2 ^ (e2 - e1).toNat) := rfl
  refine ⟨m1.toNat * 2 ^ (e1 - e2).toNat, m2.natAbs * 2 ^ (e2 - e1).toNat,
    Nat.mul_pos (by omega) (by positivity), Nat.mul_pos (by omega) (by positivity), ?_, ?_⟩
  · rw [hdiv, if_neg (by omega), Int.sign_eq_one_of_pos hm2, mul_one]
    congr 1
    push_cast
    rw [Int.toNat_of_nonneg (by omega)]
  · have a1 : ((m1.toNat : Nat) : ℚ) = (m1 : ℚ) := by
      have : ((m1.toNat : Nat) : Int) = m1 := Int.toNat_of_nonneg (by omega)
      exact_mod_cast this
    have a2 : ((m2.natAbs : Nat) : ℚ) = (m2 : ℚ) := by
      rw [Nat.cast_natAbs, abs_of_pos hm2]
    have hsplit : (2 : ℚ) ^ e1 / (2 : ℚ) ^ e2 =
        (2 : ℚ) ^ (e1 - e2).toNat / (2 : ℚ) ^ (e2 - e1).toNat := by
      rw [← zpow_sub₀ (by norm_num : (2 : ℚ) ≠ 0), two_zpow (e1 - e2)]
      congr 3
      omega
    rw [← h1, ← h2]
    push_cast
    rw [a1, a2, mul_div_mul_comm, mul_div_mul_comm, hsplit]

end FloatOps2

section CeilRound

/-- The heart of the time computation: for a word count `w` below `2^53` and a divisor `v`
that is a positive integer of at most `2^63`, rounding the quotient `w / v` to a `float64`
and taking `math.Ceil` gives exactly the integer ceiling `(w + v - 1) / v`. -/
theorem ceil_round (n d w v : Nat) (hn : 0 < n) (hd : 0 < d) (hw0 : 0 < w) (hw : w < 2 ^ 53)
    (hv0 : 0 < v) (hv : v ≤ 2 ^ 63) (hx : (n : ℚ) / (d : ℚ) = (w : ℚ) / (v : ℚ)) :
    (F64.ceil (F64.round (n : Int) d)).IsInt (((w + v - 1) / v : Nat) : Int) := by
  have hdq : (0 : ℚ) < (d : ℚ) := by exact_mod_cast hd
  have hvq : (0 : ℚ) < (v : ℚ) := by exact_mod_cast hv0
  have hwq : (1 : ℚ) ≤ (w : ℚ) := by exact_mod_cast hw0
  -- the integer ceiling
  have hc1 : w ≤ (w + v - 1) / v * v := by
    have := Nat.div_add_mod (w + v - 1) v
    have := Nat.mod_lt (w + v - 1) hv0
    have : v * ((w + v - 1) / v) = (w + v - 1) / v * v := mul_comm _ _
    omega
  have hc2 : (w + v - 1) / v * v < w + v := by
    have := Nat.div_add_mod (w + v - 1) v
    have : v * ((w + v - 1) / v) = (w + v - 1) / v * v := mul_comm _ _
    omega
  generalize (w + v - 1) / v = c at hc1 hc2 ⊢
  have hcpos : 1 ≤ c := by
    rcases Nat.eq_zero_or_pos c with h | h
    · subst h; omega
    · exact h
  -- cross multiplication
  have hcross : n * v = w * d := by
    rw [div_eq_div_iff (ne_of_gt hdq) (ne_of_gt hvq)] at hx
    exact_mod_cast hx
  -- the exponent
  have hlo : (2 : ℚ) ^ (-63 : Int) ≤ (n : ℚ) / (d : ℚ) := by
    rw [hx, le_div_iff₀ hvq]
    have h63 : (2 : ℚ) ^ (-63 : Int) = 1 / ((2 ^ 63 : Nat) : ℚ) := by norm_num
    have hv' : (v : ℚ) ≤ ((2 ^ 63 : Nat) : ℚ) := by exact_mod_cast hv
    rw [h63, div_mul_eq_mul_div, one_mul]
    have hp : (0 : ℚ) < ((2 ^ 63 : Nat) : ℚ) := by positivity
    rw [div_le_iff₀ hp]
    nlinarith
  have hhi : (n : ℚ) / (d : ℚ) < (2 : ℚ) ^ (53 : Int) := by
    rw [hx, div_lt_iff₀ hvq]
    have h53 : (2 : ℚ) ^ (53 : Int) = ((2 ^ 53 : Nat) : ℚ) := by norm_num
    have hw' : (w : ℚ) < ((2 ^ 53 : Nat) : ℚ) := by exact_mod_cast hw
    have hv1 : (1 : ℚ) ≤ (v : ℚ) := by exact_mod_cast hv0
    rw [h53]
    have hp : (0 : ℚ) < ((2 ^ 53 : Nat) : ℚ) := by positivity
    nlinarith
  obtain ⟨b1, b2, _, b4⟩ := ulpExp_bounds n d hn hd (-63) 53 hlo hhi
  have b4 := b4 (by norm_num)
  set u := ulpExp n d with hudef
  have hu0 : u ≤ 0 := by omega
  have hpos : u.toNat = 0 := by omega
  have hfin : ¬ (971 ≤ u ∧
      2 ^ 1024 ≤ roundNearestEven (n * 2 ^ (-u).toNat) (d * 2 ^ u.toNat) * 2 ^ u.toNat) := by
    intro h; omega
  have hround := round_pos n d hn hfin
  rw [← hudef, hpos, pow_zero, mul_one] at hround
  have hP : 0 < 2 ^ (-u).toNat := by positivity
  generalize hPdef : 2 ^ (-u).toNat = P at hround hP
  -- `v < 2 * P`
  have hvP : v < 2 * P := by
    have e : (2 : ℚ) ^ (u + 52) = ((2 ^ 52 : Nat) : ℚ) / (P : ℚ) := by
      rw [two_zpow (u + 52)]
      have e1 : (u + 52).toNat + (-u).toNat = 52 + (-(u + 52)).toNat := by omega
      have hne : ∀ k : Nat, (2 : ℚ) ^ k ≠ 0 := fun k => by positivity
      have e2 : (2 : ℚ) ^ (u + 52).toNat * (2 : ℚ) ^ (-u).toNat =
          (2 : ℚ) ^ 52 * (2 : ℚ) ^ (-(u + 52)).toNat := by
        rw [← pow_add, ← pow_add, e1]
      have e3 : ((2 ^ 52 : Nat) : ℚ) = (2 : ℚ) ^ 52 := by norm_num
      have e4 : (P : ℚ) = (2 : ℚ) ^ (-u).toNat := by rw [← hPdef]; norm_num
      rw [e3, e4, div_eq_div_iff (hne _) (hne _), e2]
    rw [e, hx] at b4
    have hPq : (0 : ℚ) < (P : ℚ) := by exact_mod_cast hP
    rw [div_le_div_iff₀ hPq hvq] at b4
    have b4' : 2 ^ 52 * v ≤ w * P := by exact_mod_cast b4
    have : 2 ^ 52 * v < 2 ^ 52 * (2 * P) := by
      calc 2 ^ 52 * v ≤ w * P := b4'
        _ < 2 ^ 53 * P := Nat.mul_lt_mul_of_pos_right hw hP
        _ = 2 ^ 52 * (2 * P) := by ring
    exact Nat.lt_of_mul_lt_mul_left this
  -- the significand lies in `((c-1) * P, c * P]`
  have hnc : n ≤ c * d := by
    have : n * v ≤ c * d * v := by
      calc n * v = w * d := hcross
        _ ≤ c * v * d := Nat.mul_le_mul_right d hc1
        _ = c * d * v := by ring
    exact Nat.le_of_mul_le_mul_right this hv0
  have hupper : roundNearestEven (n * P) d ≤ c * P := by
    apply roundNearestEven_le _ _ _ hd
    calc n * P ≤ c * d * P := Nat.mul_le_mul_right P hnc
      _ = c * P * d := by ring
  have hlower : (c - 1) * P + 1 ≤ roundNearestEven (n * P) d := by
    apply succ_le_roundNearestEven _ _ _ hd
    have hw2 : (c - 1) * v + 1 ≤ w := by
      have : (c - 1) * v + v = c * v := by
        have : c = (c - 1) + 1 := by omega
        conv_rhs => rw [this, add_mul, one_mul]
      omega
    have key : (2 * ((c - 1) * P) + 1) * d * v < 2 * (n * P) * v := by
      have h1 : 2 * (n * P) * v = 2 * P * d * w := by
        calc 2 * (n * P) * v = 2 * P * (n * v) := by ring
          _ = 2 * P * (w * d) := by rw [hcross]
          _ = 2 * P * d * w := by ring
      rw [h1]
      have h2 : (2 * ((c - 1) * P) + 1) * d * v < 2 * P * d * ((c - 1) * v + 1) := by
        have h3 : (2 * ((c - 1) * P) + 1) * d * v = d * (2 * P * ((c - 1) * v) + v) := by ring
        have h4 : 2 * P * d * ((c - 1) * v + 1) = d * (2 * P * ((c - 1) * v) + 2 * P) := by ring
        rw [h3, h4]
        exact Nat.mul_lt_mul_of_pos_left (by omega) hd
      exact lt_of_lt_of_le h2 (Nat.mul_le_mul_left _ hw2)
    exact Nat.lt_of_mul_lt_mul_right key
  generalize roundNearestEven (n * P) d = M at hround hupper hlower
  rw [hround]
  have hc : F64.ceil (.finite (M : Int) u) =
      if 0 ≤ u then .finite (M : Int) u
      else .finite (-((-(M : Int)) / 2 ^ (-u).toNat)) 0 := rfl
  rw [hc]
  by_cases h0 : 0 ≤ u
  · have hu : u = 0 := by omega
    have hP1 : P = 1 := by
      rw [← hPdef, hu]; rfl
    subst hP1
    have hM : M = c := by omega
    rw [if_pos h0, hu, hM]
    exact ⟨_, _, rfl, by simp⟩
  · rw [if_neg h0]
    refine ⟨_, 0, rfl, ?_⟩
    have hq : (-(M : Int)) / ((2 : Int) ^ (-u).toNat) = -(c : Int) := by
      have hPi : ((2 : Int) ^ (-u).toNat) = (P : Int) := by
        rw [← hPdef]; push_cast; rfl
      rw [hPi]
      have hPpos : (0 : Int) < (P : Int) := by exact_mod_cast hP
      have h1 : (0 : Int) ≤ (c : Int) * P - M := by
        have : ((M : Nat) : Int) ≤ ((c * P : Nat) : Int) := by exact_mod_cast hupper
        push_cast at this; linarith
      have h2 : (c : Int) * P - M < P := by
        have : (((c - 1) * P + 1 : Nat) : Int) ≤ ((M : Nat) : Int) := by exact_mod_cast hlower
        push_cast [Nat.cast_sub hcpos] at this
        linarith
      exact ((Int.ediv_emod_unique hPpos).2 ⟨by ring, h1, h2⟩).1
    rw [hq]
    simp

end CeilRound

section Stats

/-- A product of two `float64` with positive integer values is exact when it has fewer than
53 significant bits. -/
theorem mul_of_isInt (x y : F64) (a b z k : Nat) (ha : 0 < a) (hb : 0 < b)
    (hx : x.IsInt (a : Int)) (hy : y.IsInt (b : Int)) (hz : z < 2 ^ 53) (hk : k ≤ 970)
    (hab : a * b = z * 2 ^ k) : (F64.mul x y).IsInt ((a * b : Nat) : Int) := by
  obtain ⟨m1, e1, rfl, h1⟩ := hx
  obtain ⟨m2, e2, rfl, h2⟩ := hy
  have haq : (0 : ℚ) < (a : ℚ) := by exact_mod_cast ha
  have hbq : (0 : ℚ) < (b : ℚ) := by exact_mod_cast hb
  push_cast at h1 h2
  have hm1 : 0 < m1 := by
    have : (0 : ℚ) < (m1 : ℚ) := by
      have := zpow_two_pos e1
      by_contra hc
      have : (m1 : ℚ) * (2 : ℚ) ^ e1 ≤ 0 := mul_nonpos_of_nonpos_of_nonneg (by linarith) (by linarith)
      linarith
    exact_mod_cast this
  have hm2 : 0 < m2 := by
    have : (0 : ℚ) < (m2 : ℚ) := by
      have := zpow_two_pos e2
      by_contra hc
      have : (m2 : ℚ) * (2 : ℚ) ^ e2 ≤ 0 := mul_nonpos_of_nonpos_of_nonneg (by linarith) (by linarith)
      linarith
    exact_mod_cast this
  have hmul : F64.mul (.finite m1 e1) (.finite m2 e2) =
      F64.round (m1 * m2 * 2 ^ (e1 + e2).toNat) (2 ^ (-(e1 + e2)).toNat) := rfl
  have hprod : 0 < m1 * m2 := Int.mul_pos hm1 hm2
  have hnum : m1 * m2 * 2 ^ (e1 + e2).toNat =
      (((m1 * m2).toNat * 2 ^ (e1 + e2).toNat : Nat) : Int) := by
    push_cast
    rw [Int.toNat_of_nonneg (by omega)]
  have hval : ((((m1 * m2).toNat * 2 ^ (e1 + e2).toNat : Nat) : ℚ)) /
      (((2 ^ (-(e1 + e2)).toNat : Nat) : ℚ)) = ((a * b : Nat) : ℚ) := by
    have a1 : (((m1 * m2).toNat : Nat) : ℚ) = (m1 : ℚ) * (m2 : ℚ) := by
      have : (((m1 * m2).toNat : Nat) : Int) = m1 * m2 := Int.toNat_of_nonneg (by omega)
      exact_mod_cast this
    push_cast
    rw [a1, ← h1, ← h2, mul_div_assoc, ← two_zpow (e1 + e2),
      zpow_add₀ (by norm_num : (2 : ℚ) ≠ 0)]
    ring
  obtain ⟨m, r1, r2⟩ := round_exact ((m1 * m2).toNat * 2 ^ (e1 + e2).toNat)
    (2 ^ (-(e1 + e2)).toNat) z (k : Int)
    (Nat.mul_pos (by omega) (by positivity)) (by positivity) hz (by omega) (by omega)
    (by rw [hval, hab, zpow_natCast]; push_cast; rfl)
  rw [hmul, hnum]
  exact ⟨m, _, r1, by push_cast; rw [r2, hval]; push_cast; rfl⟩

theorem ceilDiv_eq_one (w v : Nat) (hw : 0 < w) (h : w ≤ v) : (w + v - 1) / v = 1 :=
  Nat.div_eq_of_lt_le (by omega) (by omega)

/-- The reading time stats for a word count below `2^53` and a positive 64-bit reading
speed, as long as the minutes fit in a `time.Duration`: the minutes are the integer ceiling
of the quotient. -/
theorem readingStats_eq (impl : F64 → Int) (w s : Nat) (hw0 : 0 < w) (hw : w < 2 ^ 53)
    (hs0 : 0 < s) (hs : s < 2 ^ 63) (hN : (w + s - 1) / s ≤ 153722867) :
    readingStats impl (w : Int) (s : Int) =
      { Text := toString (((w + s - 1) / s : Nat) : Int) ++ " min read"
        Duration := (((w + s - 1) / s : Nat) : Int) * minute
        Words := (w : Int) } := by
  obtain ⟨v, hv, hv0, hv63, hv1, hv2⟩ := ofInt_speed s hs0 hs
  obtain ⟨n, d, hn, hd, hdiv, hx⟩ :=
    div_of_isInt _ _ w v hw0 hv0 (ofInt_exact w hw) hv
  have hmin := ceil_round n d w v hn hd hw0 hw hv0 hv63 hx
  rw [← hdiv] at hmin
  have hc : (w + v - 1) / v = (w + s - 1) / s := by
    rcases Nat.lt_or_ge s (2 ^ 53) with h | h
    · rw [hv1 h]
    · rw [ceilDiv_eq_one w v hw0 (by have := hv2 h; omega), ceilDiv_eq_one w s hw0 (by omega)]
  rw [hc] at hmin
  have hNpos : 0 < (w + s - 1) / s := by
    apply Nat.div_pos <;> omega
  generalize (w + s - 1) / s = N at hmin hN hNpos ⊢
  have hmul := mul_of_isInt _ _ N 60000000000 (N * 29296875) 11 hNpos (by norm_num)
    (isInt_ceil hmin) (ofInt_exact 60000000000 (by norm_num)) (by omega) (by norm_num) (by ring)
  have ht := isInt_toInt hmin impl (by omega) (by omega)
  have hd := isInt_toInt hmul impl (by omega) (by push_cast; omega)
  unfold readingStats
  simp only [minute]
  rw [ht]
  have e : ((60000000000 : Nat) : Int) = 60000000000 := rfl
  rw [e] at hd
  rw [hd]
  push_cast
  rfl

end Stats

section Results

variable (bound : WordBoundFunc)

theorem wordStarts_pos (text : List Byte) (h : ∃ k, InWord bound text k) :
    0 < wordStarts bound text := by
  obtain ⟨s, hs, hsb⟩ := exists_first_inWord bound text h
  have hsw : StartsWord bound text s := by
    refine ⟨hs, ?_⟩
    rcases Nat.eq_zero_or_pos s with h0 | h0
    · exact Or.inl h0
    · exact Or.inr (hsb (s - 1) (by omega))
  have h1 := startsBelow_succ bound text s
  rw [if_pos hsw] at h1
  have h2 := startsBelow_mono bound text (show s + 1 ≤ text.length from inWord_lt hs)
  unfold wordStarts
  omega

/-- The two ways in which `Estimate` returns: the fast path of the empty text, and the
count of a text with a byte that is not a word bound. -/
theorem Estimate_done (impl : F64 → Int) (text : List Byte) (opts : List OptionFn) (r : Result)
    (h : Estimate impl text opts = .done r) :
    (text = [] ∧ r = { Text := "0 min read", Duration := 0, Words := 0 }) ∨
    ((∃ k, InWord (applyOptions opts).WordBound text k) ∧
      r = readingStats impl (wordStarts (applyOptions opts).WordBound text : Nat)
        (applyOptions opts).WordsPerMinute) := by
  by_cases he : text = []
  · subst he
    left
    refine ⟨rfl, ?_⟩
    have h0 : Estimate impl [] opts = .done { Text := "0 min read", Duration := 0, Words := 0 } :=
      rfl
    rw [h0] at h
    injection h with h
    exact h.symm
  · right
    by_cases hw : ∃ k, InWord (applyOptions opts).WordBound text k
    · refine ⟨hw, ?_⟩
      rw [Estimate_of_inWord text impl opts hw] at h
      injection h with h
      exact h.symm
    · exfalso
      have hall : ∀ k, k < text.length → IsBound (applyOptions opts).WordBound text k := by
        intro k hk
        rcases inWord_or_isBound (applyOptions opts).WordBound text hk with h1 | h1
        · exact absurd ⟨k, h1⟩ hw
        · exact h1
      rw [Estimate_of_all_bounds text impl opts he hall] at h
      cases h

theorem runs_of_no_bounds (prev : Bool) (s : List Byte) (hs : ∀ b ∈ s, bound b = false) :
    runs bound prev s = if prev = true ∧ s ≠ [] then 1 else 0 := by
  induction s generalizing prev with
  | nil => simp [runs]
  | cons x s ih =>
    have hx : bound x = false := hs x (List.mem_cons_self _ _)
    rw [runs, ih _ (fun b hb => hs b (List.mem_cons_of_mem _ hb)), hx]
    cases prev <;> simp

theorem endsOpen_append (prev : Bool) (a b : List Byte) :
    endsOpen bound prev (a ++ b) = endsOpen bound (endsOpen bound prev a) b := by
  unfold endsOpen
  rw [List.getLast?_append]
  cases b.getLast? <;> cases a.getLast? <;> simp

theorem endsOpen_of_getLast (prev : Bool) (a : List Byte) (x : Byte)
    (h : a.getLast? = some x) : endsOpen bound prev a = bound x := by
  unfold endsOpen
  rw [h]

theorem runs_cons_inWord (prev : Bool) (x : Byte) (t : List Byte) (hx : bound x = false) :
    runs bound prev (x :: t) = (if prev = true then 1 else 0) + runs bound false t := by
  rw [runs, hx]
  cases prev <;> simp

end Results

section Examples

theorem applyOptions_wordsPerMinute (s : Int) :
    applyOptions [WordsPerMinute s] =
      { WordsPerMinute := s, WordBound := defaultWordBoundFunc } := rfl

theorem runs_repeatWord (n : Nat) : runs defaultWordBoundFunc true (repeatWord n) = n := by
  induction n with
  | zero => rfl
  | succ n ih =>
    have h1 : defaultWordBoundFunc 97 = false := by decide
    have h2 : defaultWordBoundFunc 32 = true := by decide
    rw [repeatWord, runs, runs, h1, h2, ih]
    simp
    omega

/-- The result of `Estimate` on `n` one-letter words with the reading speed `s`. -/
theorem Estimate_repeatWord (impl : F64 → Int) (n : Nat) (s : Int) (hn : 0 < n) :
    Estimate impl (repeatWord n) [WordsPerMinute s] = .done (readingStats impl (n : Int) s) := by
  have hw : ∃ k, InWord (applyOptions [WordsPerMinute s]).WordBound (repeatWord n) k := by
    refine ⟨0, ?_⟩
    obtain ⟨m, rfl⟩ : ∃ m, n = m + 1 := ⟨n - 1, by omega⟩
    rw [repeatWord]
    simp [InWord, applyOptions_wordsPerMinute]
    decide
  rw [Estimate_of_inWord _ impl _ hw, applyOptions_wordsPerMinute]
  simp only
  rw [wordStarts_eq_runs, runs_repeatWord]

end Examples

section Stats2

/-- The reading time stats, with the word count and the reading speed as Go `int`s. -/
theorem readingStats_int (impl : F64 → Int) (W S : Int) (hW0 : 0 < W) (hW : W < 2 ^ 53)
    (hS0 : 0 < S) (hS : S < 2 ^ 63) (hN : (W + S - 1) / S ≤ 153722867) :
    readingStats impl W S =
      { Text := toString ((W + S - 1) / S) ++ " min read"
        Duration := (W + S - 1) / S * minute
        Words := W } := by
  obtain ⟨w, rfl⟩ : ∃ w : Nat, W = (w : Int) := ⟨W.toNat, by omega⟩
  obtain ⟨s, rfl⟩ : ∃ s : Nat, S = (s : Int) := ⟨S.toNat, by omega⟩
  have hw0 : 0 < w := by omega
  have hs0 : 0 < s := by omega
  have e : ((w : Int) + (s : Int) - 1) / (s : Int) = (((w + s - 1) / s : Nat) : Int) := by
    rw [Int.natCast_div]
    congr 1
    omega
  rw [e] at hN ⊢
  exact readingStats_eq impl w s hw0 (by omega) hs0 (by omega) (by omega)

theorem ceilDiv_of_le (W S : Int) (hW0 : 0 < W) (h : W ≤ S) : (W + S - 1) / S = 1 := by
  have h1 : W + S - 1 = (W - 1) + S * 1 := by ring
  rw [h1, Int.add_mul_ediv_left _ _ (by omega), Int.ediv_eq_zero_of_lt (by omega) (by omega)]
  rfl

theorem ceilDiv_mul (k S : Int) (hS : 0 < S) : (k * S + S - 1) / S = k := by
  have h1 : k * S + S - 1 = (S - 1) + S * k := by ring
  rw [h1, Int.add_mul_ediv_left _ _ (by omega), Int.ediv_eq_zero_of_lt (by omega) (by omega)]
  simp

theorem ceilDiv_mul_succ (k S : Int) (hS : 0 < S) : (k * S + 1 + S - 1) / S = k + 1 := by
  have h1 : k * S + 1 + S - 1 = 0 + S * (k + 1) := by ring
  rw [h1, Int.add_mul_ediv_left _ _ (by omega)]
  simp

theorem ceilDiv_pos (W S : Int) (hW0 : 0 < W) (hS : 0 < S) : 1 ≤ (W + S - 1) / S := by
  have h1 : W + S - 1 = (W - 1) + S * 1 := by ring
  rw [h1, Int.add_mul_ediv_left _ _ (by omega)]
  have := Int.ediv_nonneg (show 0 ≤ W - 1 by omega) (show 0 ≤ S by omega)
  omega

set_option maxRecDepth 100000 in
theorem readingStats_overflow_a :
    readingStats F64.amd64 153722868 1 =
      { Text := "153722868 min read", Duration := -9223372036854775808, Words := 153722868 } := by
  decide

set_option maxRecDepth 100000 in
theorem readingStats_overflow_b :
    readingStats F64.amd64 307445736 2 =
      { Text := "153722868 min read", Duration := -9223372036854775808, Words := 307445736 } := by
  decide

set_option maxRecDepth 100000 in
theorem readingStats_overflow_c :
    readingStats F64.amd64 200000000 1 =
      { Text := "200000000 min read", Duration := -9223372036854775808, Words := 200000000 } := by
  decide

/-- The count of a text with a byte that is not a word bound, with the words given by the
number of word starts read from left to right. -/
theorem Estimate_runs (impl : F64 → Int) (p : WordBoundFunc) (text : List Byte)
    (opts : List OptionFn) (hp : (applyOptions opts).WordBound = p)
    (h : ∃ b ∈ text, p b = false) :
    Estimate impl text opts =
      .done (readingStats impl (runs p true text : Nat) (applyOptions opts).WordsPerMinute) := by
  subst hp
  rw [Estimate_of_inWord text impl opts ((exists_inWord_iff _ text).2 h), wordStarts_eq_runs]

theorem all_bounds_of_all (p : WordBoundFunc) (l : List Byte) (h : l.all p = true) :
    ∀ b ∈ l, p b = true :=
  List.all_eq_true.mp h

theorem no_bounds_of_all (p : WordBoundFunc) (l : List Byte)
    (h : l.all (fun b => !p b) = true) : ∀ b ∈ l, p b = false := by
  intro b hb
  have := List.all_eq_true.mp h b hb
  simpa using this

theorem mem_of_head? {t : List Byte} {b : Byte} (h : t.head? = some b) : b ∈ t := by
  cases t with
  | nil => simp at h
  | cons x t =>
    simp at h
    subst h
    exact List.mem_cons_self _ _

end Stats2

/-! ## The text and the duration, separately -/

section Stats3

/-- The minutes of the reading time stats for a word count below `2^53` and a positive
64-bit reading speed: `math.Ceil` of the `float64` quotient is the integer ceiling of the
quotient, whatever its size. -/
theorem minutes_isInt (w s : Nat) (hw0 : 0 < w) (hw : w < 2 ^ 53) (hs0 : 0 < s)
    (hs : s < 2 ^ 63) :
    (F64.ceil (F64.div (F64.ofInt (w : Int)) (F64.ofInt (s : Int)))).IsInt
      (((w + s - 1) / s : Nat) : Int) := by
  obtain ⟨v, hv, hv0, hv63, hv1, hv2⟩ := ofInt_speed s hs0 hs
  obtain ⟨n, d, hn, hd, hdiv, hx⟩ :=
    div_of_isInt _ _ w v hw0 hv0 (ofInt_exact w hw) hv
  have hmin := ceil_round n d w v hn hd hw0 hw hv0 hv63 hx
  rw [← hdiv] at hmin
  have hc : (w + v - 1) / v = (w + s - 1) / s := by
    rcases Nat.lt_or_ge s (2 ^ 53) with h | h
    · rw [hv1 h]
    · rw [ceilDiv_eq_one w v hw0 (by have := hv2 h; omega), ceilDiv_eq_one w s hw0 (by omega)]
  rw [hc] at hmin
  exact hmin

theorem ceilDiv_le_self (w s : Nat) (hw0 : 0 < w) (hs0 : 0 < s) : (w + s - 1) / s ≤ w := by
  apply Nat.div_le_of_le_mul
  have h : (w - 1) + s ≤ s * (w - 1) + s := Nat.add_le_add_right (Nat.le_mul_of_pos_left _ hs0) s
  have e : s * w = s * (w - 1) + s := by
    have : w = (w - 1) + 1 := by omega
    conv_lhs => rw [this, mul_add, mul_one]
  omega

/-- The field `Text` of the reading time stats for a word count below `2^53` and a positive
64-bit reading speed: the integer ceiling of the quotient, however many minutes that is. -/
theorem readingStats_text (impl : F64 → Int) (W S : Int) (hW0 : 0 < W) (hW : W < 2 ^ 53)
    (hS0 : 0 < S) (hS : S < 2 ^ 63) :
    (readingStats impl W S).Text = toString ((W + S - 1) / S) ++ " min read" := by
  obtain ⟨w, rfl⟩ : ∃ w : Nat, W = (w : Int) := ⟨W.toNat, by omega⟩
  obtain ⟨s, rfl⟩ : ∃ s : Nat, S = (s : Int) := ⟨S.toNat, by omega⟩
  have hw0 : 0 < w := by omega
  have hs0 : 0 < s := by omega
  have e : ((w : Int) + (s : Int) - 1) / (s : Int) = (((w + s - 1) / s : Nat) : Int) := by
    rw [Int.natCast_div]
    congr 1
    omega
  have hmin := minutes_isInt w s hw0 (by omega) hs0 (by omega)
  have hle := ceilDiv_le_self w s hw0 hs0
  rw [e]
  generalize (w + s - 1) / s = N at hmin hle ⊢
  have ht := isInt_toInt hmin impl (by omega) (by omega)
  show toString (F64.toInt impl
    (F64.ceil (F64.div (F64.ofInt (w : Int)) (F64.ofInt (s : Int))))) ++ " min read" = _
  rw [ht]

/-- The field `Duration` of the reading time stats for a word count below `2^53` and a
positive 64-bit reading speed, as long as the minutes fit in a `time.Duration`. -/
theorem readingStats_duration (impl : F64 → Int) (W S : Int) (hW0 : 0 < W) (hW : W < 2 ^ 53)
    (hS0 : 0 < S) (hS : S < 2 ^ 63) (hN : (W + S - 1) / S ≤ 153722867) :
    (readingStats impl W S).Duration = (W + S - 1) / S * minute := by
  rw [readingStats_int impl W S hW0 hW hS0 hS hN]

set_option maxRecDepth 100000 in
theorem readingStats_inexact_a :
    readingStats F64.amd64 18014398509481986 1073741824 =
      { Text := "16777216 min read", Duration := 1006632960000000000,
        Words := 18014398509481986 } := by
  decide

set_option maxRecDepth 100000 in
theorem readingStats_inexact_b :
    readingStats F64.amd64 18014398509481986 536870912 =
      { Text := "33554432 min read", Duration := 2013265920000000000,
        Words := 18014398509481986 } := by
  decide

set_option maxRecDepth 100000 in
theorem readingStats_inexact_c :
    readingStats F64.amd64 9007199254741001 200 =
      { Text := "45035996273705 min read", Duration := -9223372036854775808,
        Words := 9007199254741001 } := by
  decide

set_option maxRecDepth 100000 in
theorem readingStats_test_speed (impl : F64 → Int) :
    readingStats impl 200 100 =
      { Text := "2 min read", Duration := 2 * minute, Words := 200 } ∧
    readingStats impl 200 200 =
      { Text := "1 min read", Duration := minute, Words := 200 } := by
  constructor
  · rw [readingStats_int impl 200 100 (by decide) (by decide) (by decide) (by decide)
      (by decide)]
    rfl
  · rw [readingStats_int impl 200 200 (by decide) (by decide) (by decide) (by decide)
      (by decide)]
    rfl

end Stats3

/-! ## The claims -/

section Claims

/-- C1. For every word-bound predicate `p` and every text with at least one byte on which
`p` is false, `Estimate` returns and the field `Words` of its result is the number of
maximal contiguous runs of bytes that are not word bounds (`wordCount`, defined on the
positions of the text and not on the cursors of the loops). -/
theorem C1_words_eq_wordCount (impl : F64 → Int) (p : WordBoundFunc) (text : List Byte)
    (opts : List OptionFn) (hp : (applyOptions opts).WordBound = p)
    (h : ∃ b ∈ text, p b = false) :
    ∃ r, Estimate impl text opts = .done r ∧ r.Words = (wordCount p text : Int) := by
  subst hp
  refine ⟨_, Estimate_of_inWord text impl opts ((exists_inWord_iff _ text).2 h), ?_⟩
  rw [wordCount_eq_wordStarts]
  rfl

/-- C1 on the text `word  word    word` with no options. -/
theorem C1_words_eq_wordCount_witness :
    ((applyOptions []).WordBound = defaultWordBoundFunc ∧
      ∃ b ∈ ascii "word  word    word", defaultWordBoundFunc b = false) ∧
    ∃ r, Estimate F64.amd64 (ascii "word  word    word") [] = .done r ∧
      r.Words = (wordCount defaultWordBoundFunc (ascii "word  word    word") : Int) :=
  ⟨⟨rfl, 119, by decide, by decide⟩,
    C1_words_eq_wordCount F64.amd64 defaultWordBoundFunc (ascii "word  word    word") [] rfl
      ⟨119, by decide, by decide⟩⟩

/-- C2. On the text made of one space, with no options, `Estimate` does not return
`Words = 0`, `Duration = 0`, `Text = "0 min read"`: the leading loop reads `text[1]`, outside
the text, and the run ends with the panic `index out of range`. -/
theorem C2_single_space_panics (impl : F64 → Int) :
    Estimate impl (ascii " ") [] = .panic :=
  Estimate_of_all_bounds (ascii " ") impl [] (by decide)
    ((forall_isBound_iff _ _).2 (all_bounds_of_all _ _ (by decide)))

/-- C3. `Estimate` is not total: on every text that is not empty and has word bounds only,
whatever the options, the run ends with the panic `index out of range`. -/
theorem C3_all_bounds_panics (impl : F64 → Int) (text : List Byte) (opts : List OptionFn)
    (hne : text ≠ []) (h : ∀ b ∈ text, (applyOptions opts).WordBound b = true) :
    Estimate impl text opts = .panic :=
  Estimate_of_all_bounds text impl opts hne ((forall_isBound_iff _ _).2 h)

/-- C3 on the text of three spaces with the option `WordsPerMinute(100)`. -/
theorem C3_all_bounds_panics_witness :
    (ascii "   " ≠ [] ∧
      ∀ b ∈ ascii "   ", (applyOptions [WordsPerMinute 100]).WordBound b = true) ∧
    Estimate F64.amd64 (ascii "   ") [WordsPerMinute 100] = .panic :=
  ⟨⟨by decide, all_bounds_of_all _ _ (by decide)⟩,
    C3_all_bounds_panics F64.amd64 (ascii "   ") [WordsPerMinute 100] (by decide)
      (all_bounds_of_all _ _ (by decide))⟩

/-- C4. For the empty text and every list of options, `Estimate` returns exactly
`Words = 0`, `Duration = 0` and `Text = "0 min read"`. -/
theorem C4_empty_text (impl : F64 → Int) (opts : List OptionFn) :
    Estimate impl [] opts = .done { Text := "0 min read", Duration := 0, Words := 0 } :=
  rfl

/-- C5, as stated, fails in two ways. On 153722868 one-letter words read at 1 word per
minute the minutes are `N = 153722868`, but `N` minutes are more nanoseconds than a
`time.Duration` holds, and (on amd64) the field `Duration` is the least 64-bit integer. On
`2^54 + 2` one-letter words read at `2^30` words per minute the word count is rounded by the
conversion to `float64`, and the minutes of `Text` and `Duration` are `16777216` where the
integer ceiling is `16777217`. -/
theorem C5_counterexample :
    (Estimate F64.amd64 (repeatWord 153722868) [WordsPerMinute 1] =
        .done { Text := "153722868 min read", Duration := -9223372036854775808,
                Words := 153722868 } ∧
      (-9223372036854775808 : Int) ≠ (153722868 + 1 - 1) / 1 * minute) ∧
    (Estimate F64.amd64 (repeatWord 18014398509481986) [WordsPerMinute 1073741824] =
        .done { Text := "16777216 min read", Duration := 1006632960000000000,
                Words := 18014398509481986 } ∧
      "16777216 min read" ≠
        toString (((18014398509481986 : Int) + 1073741824 - 1) / 1073741824) ++ " min read" ∧
      (1006632960000000000 : Int) ≠
        ((18014398509481986 : Int) + 1073741824 - 1) / 1073741824 * minute) :=
  ⟨⟨by rw [Estimate_repeatWord F64.amd64 153722868 1 (by norm_num)]
       exact congrArg Outcome.done readingStats_overflow_a,
    by decide⟩,
   ⟨by rw [Estimate_repeatWord F64.amd64 18014398509481986 1073741824 (by norm_num)]
       exact congrArg Outcome.done readingStats_inexact_a,
    by decide, by decide⟩⟩

/-- C5, amended. For every text on which `Estimate` returns with fewer than `2^53` words and
every positive reading speed `S` (a 64-bit `int`; `200` when no option sets it), with `W`
the returned `Words` and `N = (W + S - 1) / S` the integer ceiling of `W / S`: `Text` is the
decimal rendering of `N` followed by `" min read"`, whatever `N`; and if `N` is at most
`153722867` (the most minutes a `time.Duration` holds), `Duration` is exactly `N`
minutes. -/
theorem C5_duration_and_text (impl : F64 → Int) (text : List Byte) (opts : List OptionFn)
    (r : Result) (hret : Estimate impl text opts = .done r)
    (hS : 0 < (applyOptions opts).WordsPerMinute)
    (hS64 : (applyOptions opts).WordsPerMinute < 2 ^ 63)
    (hW : r.Words < 2 ^ 53) :
    r.Text = toString ((r.Words + (applyOptions opts).WordsPerMinute - 1) /
      (applyOptions opts).WordsPerMinute) ++ " min read" ∧
    ((r.Words + (applyOptions opts).WordsPerMinute - 1) /
        (applyOptions opts).WordsPerMinute ≤ 153722867 →
      r.Duration = (r.Words + (applyOptions opts).WordsPerMinute - 1) /
        (applyOptions opts).WordsPerMinute * minute) ∧
    (applyOptions []).WordsPerMinute = 200 := by
  refine ⟨?_, ?_, rfl⟩
  · have hcases := Estimate_done impl text opts r hret
    generalize (applyOptions opts).WordsPerMinute = S at *
    rcases hcases with ⟨_, hr⟩ | ⟨hw, hr⟩
    · subst hr
      have h0 : ((0 : Int) + S - 1) / S = 0 := Int.ediv_eq_zero_of_lt (by omega) (by omega)
      simp only [h0]
      rfl
    · have hpos := wordStarts_pos _ text hw
      generalize wordStarts _ text = w at hr hpos
      have hwords : r.Words = (w : Int) := by rw [hr]; rfl
      rw [hwords] at hW ⊢
      rw [hr]
      exact readingStats_text impl w S (by omega) hW hS hS64
  · have hcases := Estimate_done impl text opts r hret
    generalize (applyOptions opts).WordsPerMinute = S at *
    intro hN
    rcases hcases with ⟨_, hr⟩ | ⟨hw, hr⟩
    · subst hr
      have h0 : ((0 : Int) + S - 1) / S = 0 := Int.ediv_eq_zero_of_lt (by omega) (by omega)
      simp only [h0]
      simp
    · have hpos := wordStarts_pos _ text hw
      generalize wordStarts _ text = w at hr hpos
      have hwords : r.Words = (w : Int) := by rw [hr]; rfl
      rw [hwords] at hW hN ⊢
      rw [hr]
      exact readingStats_duration impl w S (by omega) hW hS hS64 hN

/-- C5, amended, on the text `a b c d e` read at 2 words per minute. -/
theorem C5_duration_and_text_witness :
    (Estimate F64.amd64 (ascii "a b c d e") [WordsPerMinute 2] =
        .done { Text := "3 min read", Duration := 180000000000, Words := 5 } ∧
      0 < (applyOptions [WordsPerMinute 2]).WordsPerMinute ∧
      (applyOptions [WordsPerMinute 2]).WordsPerMinute < 2 ^ 63 ∧
      (5 : Int) < 2 ^ 53) ∧
    ("3 min read" = toString (((5 : Int) + (applyOptions [WordsPerMinute 2]).WordsPerMinute - 1) /
        (applyOptions [WordsPerMinute 2]).WordsPerMinute) ++ " min read" ∧
    (((5 : Int) + (applyOptions [WordsPerMinute 2]).WordsPerMinute - 1) /
        (applyOptions [WordsPerMinute 2]).WordsPerMinute ≤ 153722867 →
      (180000000000 : Int) =
        ((5 : Int) + (applyOptions [WordsPerMinute 2]).WordsPerMinute - 1) /
          (applyOptions [WordsPerMinute 2]).WordsPerMinute * minute) ∧
    (applyOptions []).WordsPerMinute = 200) :=
  ⟨⟨by decide, by decide, by decide, by decide⟩,
    C5_duration_and_text F64.amd64 (ascii "a b c d e") [WordsPerMinute 2]
      { Text := "3 min read", Duration := 180000000000, Words := 5 }
      (by decide) (by decide) (by decide) (by decide)⟩

end Claims

section Claims2

/-- C6, as stated, fails in two ways. On 307445736 one-letter words read at 2 words per
minute the word count is positive, yet (on amd64) the field `Duration` is the least 64-bit
integer, which is below one minute: 153722868 minutes do not fit in a `time.Duration`. On
`2^54 + 2` one-letter words read at `2^29` words per minute the word count is rounded by the
conversion to `float64`, and `Text` shows `33554432` where `max 1 (ceil (Words / speed))` is
`33554433`. -/
theorem C6_counterexample :
    (Estimate F64.amd64 (repeatWord 307445736) [WordsPerMinute 2] =
        .done { Text := "153722868 min read", Duration := -9223372036854775808,
                Words := 307445736 } ∧
      ¬ (minute ≤ (-9223372036854775808 : Int))) ∧
    (Estimate F64.amd64 (repeatWord 18014398509481986) [WordsPerMinute 536870912] =
        .done { Text := "33554432 min read", Duration := 2013265920000000000,
                Words := 18014398509481986 } ∧
      "33554432 min read" ≠
        toString (max 1 (((18014398509481986 : Int) + 536870912 - 1) / 536870912)) ++
          " min read") :=
  ⟨⟨by rw [Estimate_repeatWord F64.amd64 307445736 2 (by norm_num)]
       exact congrArg Outcome.done readingStats_overflow_b,
    by decide⟩,
   ⟨by rw [Estimate_repeatWord F64.amd64 18014398509481986 536870912 (by norm_num)]
       exact congrArg Outcome.done readingStats_inexact_b,
    by decide⟩⟩

/-- C6, amended. For every text for which `Estimate` returns `Words > 0`, with fewer than
`2^53` words, and every positive reading speed `S` (a 64-bit `int`), with
`N = max 1 ((Words + S - 1) / S)`: `Text` is the decimal rendering of `N` followed by
`" min read"`, and `N >= 1`, whatever `N`; if the integer ceiling of `Words / S` is at most
`153722867` (the most minutes a `time.Duration` holds), `Duration` is at least one minute;
in particular a text with no more words than the reading speed yields `"1 min read"` and
one minute. -/
theorem C6_at_least_one_minute (impl : F64 → Int) (text : List Byte) (opts : List OptionFn)
    (r : Result) (hret : Estimate impl text opts = .done r) (hpos : 0 < r.Words)
    (hS : 0 < (applyOptions opts).WordsPerMinute)
    (hS64 : (applyOptions opts).WordsPerMinute < 2 ^ 63)
    (hW : r.Words < 2 ^ 53) :
    r.Text = toString (max 1 ((r.Words + (applyOptions opts).WordsPerMinute - 1) /
      (applyOptions opts).WordsPerMinute)) ++ " min read" ∧
    1 ≤ max 1 ((r.Words + (applyOptions opts).WordsPerMinute - 1) /
      (applyOptions opts).WordsPerMinute) ∧
    ((r.Words + (applyOptions opts).WordsPerMinute - 1) /
        (applyOptions opts).WordsPerMinute ≤ 153722867 → minute ≤ r.Duration) ∧
    (r.Words ≤ (applyOptions opts).WordsPerMinute →
      r.Text = "1 min read" ∧ r.Duration = minute) := by
  have hcases := Estimate_done impl text opts r hret
  generalize (applyOptions opts).WordsPerMinute = S at *
  rcases hcases with ⟨_, hr⟩ | ⟨hw, hr⟩
  · subst hr
    exact absurd hpos (by decide)
  · generalize wordStarts _ text = w at hr
    have hwords : r.Words = (w : Int) := by rw [hr]; rfl
    rw [hwords] at hW hpos ⊢
    have hN1 := ceilDiv_pos w S hpos hS
    have hT := readingStats_text impl w S hpos hW hS hS64
    rw [hr, max_eq_right hN1]
    refine ⟨hT, hN1, fun hN => ?_, fun hle => ?_⟩
    · rw [readingStats_duration impl w S hpos hW hS hS64 hN]
      have : (0 : Int) < minute := by decide
      nlinarith
    · have h1 := ceilDiv_of_le w S hpos hle
      rw [hT, readingStats_duration impl w S hpos hW hS hS64 (by omega), h1]
      exact ⟨rfl, by simp⟩

/-- C6, amended, on the text `0` with no options. -/
theorem C6_at_least_one_minute_witness :
    (Estimate F64.amd64 (ascii "0") [] =
        .done { Text := "1 min read", Duration := 60000000000, Words := 1 } ∧
      (0 : Int) < 1 ∧
      0 < (applyOptions []).WordsPerMinute ∧
      (applyOptions []).WordsPerMinute < 2 ^ 63 ∧
      (1 : Int) < 2 ^ 53) ∧
    ("1 min read" = toString (max 1 (((1 : Int) + (applyOptions []).WordsPerMinute - 1) /
        (applyOptions []).WordsPerMinute)) ++ " min read" ∧
      1 ≤ max 1 (((1 : Int) + (applyOptions []).WordsPerMinute - 1) /
        (applyOptions []).WordsPerMinute) ∧
      (((1 : Int) + (applyOptions []).WordsPerMinute - 1) /
          (applyOptions []).WordsPerMinute ≤ 153722867 → minute ≤ (60000000000 : Int)) ∧
      ((1 : Int) ≤ (applyOptions []).WordsPerMinute →
        "1 min read" = "1 min read" ∧ (60000000000 : Int) = minute)) :=
  ⟨⟨by decide, by decide, by decide, by decide, by decide⟩,
    C6_at_least_one_minute F64.amd64 (ascii "0") []
      { Text := "1 min read", Duration := 60000000000, Words := 1 }
      (by decide) (by decide) (by decide) (by decide) (by decide)⟩

/-- C7. For every word-bound predicate `p` and every text that is not empty and has no
byte satisfying `p`, `Estimate` returns `Words = 1`; with a positive reading speed (a
64-bit `int`) it returns `Duration` = one minute and `Text = "1 min read"` as well. -/
theorem C7_no_bounds_one_word (impl : F64 → Int) (p : WordBoundFunc) (text : List Byte)
    (opts : List OptionFn) (hp : (applyOptions opts).WordBound = p) (hne : text ≠ [])
    (h : ∀ b ∈ text, p b = false) :
    (∃ r, Estimate impl text opts = .done r ∧ r.Words = 1) ∧
    (0 < (applyOptions opts).WordsPerMinute → (applyOptions opts).WordsPerMinute < 2 ^ 63 →
      Estimate impl text opts =
        .done { Text := "1 min read", Duration := minute, Words := 1 }) := by
  have hex : ∃ b ∈ text, p b = false := by
    cases text with
    | nil => exact absurd rfl hne
    | cons x t => exact ⟨x, List.mem_cons_self _ _, h x (List.mem_cons_self _ _)⟩
  have hruns : runs p true text = 1 := by
    rw [runs_of_no_bounds p true text h]
    simp [hne]
  have hE := Estimate_runs impl p text opts hp hex
  rw [hruns] at hE
  refine ⟨⟨_, hE, rfl⟩, fun h1 h2 => ?_⟩
  rw [hE]
  have h3 := readingStats_int impl 1 (applyOptions opts).WordsPerMinute (by decide) (by decide)
    h1 h2
  rw [ceilDiv_of_le 1 _ (by decide) (by omega)] at h3
  have h4 := h3 (by decide)
  simp only [Nat.cast_one]
  rw [h4]
  simp
  rfl

/-- C7 on the text `0` with no options. -/
theorem C7_no_bounds_one_word_witness :
    ((applyOptions []).WordBound = defaultWordBoundFunc ∧ ascii "0" ≠ [] ∧
      ∀ b ∈ ascii "0", defaultWordBoundFunc b = false) ∧
    ((∃ r, Estimate F64.amd64 (ascii "0") [] = .done r ∧ r.Words = 1) ∧
    (0 < (applyOptions []).WordsPerMinute → (applyOptions []).WordsPerMinute < 2 ^ 63 →
      Estimate F64.amd64 (ascii "0") [] =
        .done { Text := "1 min read", Duration := minute, Words := 1 })) :=
  ⟨⟨rfl, by decide, no_bounds_of_all _ _ (by decide)⟩,
    C7_no_bounds_one_word F64.amd64 defaultWordBoundFunc (ascii "0") [] rfl (by decide)
      (no_bounds_of_all _ _ (by decide))⟩

/-- C8. Leading and trailing runs of word bounds do not count: for every word-bound
predicate `p`, every text `t` that begins and ends with a byte that is not a word bound, and
all strings `l` and `r` of word bounds (of any length, possibly empty), `Estimate` returns on
`l ++ t ++ r` and on `t`, with the same `Words`. -/
theorem C8_trim_invariance (impl : F64 → Int) (p : WordBoundFunc) (opts : List OptionFn)
    (hp : (applyOptions opts).WordBound = p) (t l r : List Byte)
    (hhead : ∃ b, t.head? = some b ∧ p b = false)
    (hlast : ∃ b, t.getLast? = some b ∧ p b = false)
    (hl : ∀ b ∈ l, p b = true) (hr : ∀ b ∈ r, p b = true) :
    ∃ r1 r2, Estimate impl (l ++ t ++ r) opts = .done r1 ∧
      Estimate impl t opts = .done r2 ∧ r1.Words = r2.Words := by
  obtain ⟨x, hx1, hx2⟩ := hhead
  have hxt : x ∈ t := mem_of_head? hx1
  have h1 : ∃ b ∈ l ++ t ++ r, p b = false :=
    ⟨x, List.mem_append_left _ (List.mem_append_right _ hxt), hx2⟩
  have h2 : ∃ b ∈ t, p b = false := ⟨x, hxt, hx2⟩
  refine ⟨_, _, Estimate_runs impl p _ opts hp h1, Estimate_runs impl p t opts hp h2, ?_⟩
  show ((runs p true (l ++ t ++ r) : Nat) : Int) = ((runs p true t : Nat) : Int)
  rw [runs_append, runs_append, runs_of_all_bounds p _ l hl, runs_of_all_bounds p _ r hr,
    endsOpen_of_all_bounds p true l hl (fun _ => rfl)]
  simp

/-- C8 on the text `word word word` between three and two spaces. -/
theorem C8_trim_invariance_witness :
    ((applyOptions []).WordBound = defaultWordBoundFunc ∧
      (∃ b, (ascii "word word word").head? = some b ∧ defaultWordBoundFunc b = false) ∧
      (∃ b, (ascii "word word word").getLast? = some b ∧ defaultWordBoundFunc b = false) ∧
      (∀ b ∈ ascii "   ", defaultWordBoundFunc b = true) ∧
      (∀ b ∈ ascii "  ", defaultWordBoundFunc b = true)) ∧
    ∃ r1 r2, Estimate F64.amd64 (ascii "   " ++ ascii "word word word" ++ ascii "  ") [] =
        .done r1 ∧
      Estimate F64.amd64 (ascii "word word word") [] = .done r2 ∧ r1.Words = r2.Words :=
  ⟨⟨rfl, ⟨119, by decide, by decide⟩, ⟨100, by decide, by decide⟩,
      all_bounds_of_all _ _ (by decide), all_bounds_of_all _ _ (by decide)⟩,
    C8_trim_invariance F64.amd64 defaultWordBoundFunc [] rfl (ascii "word word word")
      (ascii "   ") (ascii "  ") ⟨119, by decide, by decide⟩ ⟨100, by decide, by decide⟩
      (all_bounds_of_all _ _ (by decide)) (all_bounds_of_all _ _ (by decide))⟩

/-- C9. Consecutive word bounds collapse into one separator: for every word-bound predicate
`p`, all texts `a` and `b` where `a` ends with a byte that is not a word bound and `b` begins
with one, every string `s` of word bounds that is not empty and every single word bound `c`,
`Estimate` returns on `a ++ s ++ b` and on `a ++ [c] ++ b`, with the same `Words`. -/
theorem C9_bounds_collapse (impl : F64 → Int) (p : WordBoundFunc) (opts : List OptionFn)
    (hp : (applyOptions opts).WordBound = p) (a b s : List Byte) (c : Byte)
    (ha : ∃ x, a.getLast? = some x ∧ p x = false)
    (hb : ∃ x, b.head? = some x ∧ p x = false)
    (hs : s ≠ []) (hsb : ∀ x ∈ s, p x = true) (hc : p c = true) :
    ∃ r1 r2, Estimate impl (a ++ s ++ b) opts = .done r1 ∧
      Estimate impl (a ++ [c] ++ b) opts = .done r2 ∧ r1.Words = r2.Words := by
  obtain ⟨x, hx1, hx2⟩ := hb
  have hxb : x ∈ b := mem_of_head? hx1
  have h1 : ∃ y ∈ a ++ s ++ b, p y = false := ⟨x, List.mem_append_right _ hxb, hx2⟩
  have h2 : ∃ y ∈ a ++ [c] ++ b, p y = false := ⟨x, List.mem_append_right _ hxb, hx2⟩
  have hcb : ∀ y ∈ [c], p y = true := by
    intro y hy
    rw [List.mem_singleton.mp hy]; exact hc
  refine ⟨_, _, Estimate_runs impl p _ opts hp h1, Estimate_runs impl p _ opts hp h2, ?_⟩
  show ((runs p true (a ++ s ++ b) : Nat) : Int) = ((runs p true (a ++ [c] ++ b) : Nat) : Int)
  rw [runs_append, runs_append, runs_append p true (a ++ [c]), runs_append p true a [c],
    runs_of_all_bounds p _ s hsb, runs_of_all_bounds p _ [c] hcb,
    endsOpen_append, endsOpen_append,
    endsOpen_of_all_bounds p _ s hsb (fun h => absurd h hs),
    endsOpen_of_all_bounds p _ [c] hcb (fun h => absurd h (List.cons_ne_nil _ _))]

/-- C9 on the texts `word` and `word    word`, separated by two spaces or by one. -/
theorem C9_bounds_collapse_witness :
    ((applyOptions []).WordBound = defaultWordBoundFunc ∧
      (∃ x, (ascii "word").getLast? = some x ∧ defaultWordBoundFunc x = false) ∧
      (∃ x, (ascii "word    word").head? = some x ∧ defaultWordBoundFunc x = false) ∧
      ascii "  " ≠ [] ∧ (∀ x ∈ ascii "  ", defaultWordBoundFunc x = true) ∧
      defaultWordBoundFunc 32 = true) ∧
    ∃ r1 r2, Estimate F64.amd64 (ascii "word" ++ ascii "  " ++ ascii "word    word") [] =
        .done r1 ∧
      Estimate F64.amd64 (ascii "word" ++ [32] ++ ascii "word    word") [] = .done r2 ∧
      r1.Words = r2.Words :=
  ⟨⟨rfl, ⟨100, by decide, by decide⟩, ⟨119, by decide, by decide⟩, by decide,
      all_bounds_of_all _ _ (by decide), by decide⟩,
    C9_bounds_collapse F64.amd64 defaultWordBoundFunc [] rfl (ascii "word") (ascii "word    word")
      (ascii "  ") 32 ⟨100, by decide, by decide⟩ ⟨119, by decide, by decide⟩ (by decide)
      (all_bounds_of_all _ _ (by decide)) (by decide)⟩

/-- C10, as stated, fails: on 200000000 one-letter words read at 1 word per minute
(`k = 200000000`, `S = 1`) the field `Duration` is (on amd64) the least 64-bit integer and
not `k` minutes, which do not fit in a `time.Duration`. -/
theorem C10_counterexample :
    Estimate F64.amd64 (repeatWord 200000000) [WordsPerMinute 1] =
      .done { Text := "200000000 min read", Duration := -9223372036854775808,
              Words := 200000000 } ∧
    (200000000 : Int) = 200000000 * 1 ∧
    (-9223372036854775808 : Int) ≠ 200000000 * minute :=
  ⟨by rw [Estimate_repeatWord F64.amd64 200000000 1 (by norm_num)]
      exact congrArg Outcome.done readingStats_overflow_c,
   by decide, by decide⟩

/-- C10, amended. Rounding at the minute boundary: for every positive reading speed `S` (a
64-bit `int`) and every integer `k >= 1`, a text for which `Estimate` counts exactly `k * S`
words (fewer than `2^53`) yields `Duration` = `k` minutes if `k <= 153722867`, and a text
for which it counts exactly `k * S + 1` words yields `Duration` = `k + 1` minutes if
`k + 1 <= 153722867` (the most minutes a `time.Duration` holds). -/
theorem C10_minute_boundary (impl : F64 → Int) (text : List Byte) (opts : List OptionFn)
    (r : Result) (k : Int) (hret : Estimate impl text opts = .done r)
    (hS : 0 < (applyOptions opts).WordsPerMinute)
    (hS64 : (applyOptions opts).WordsPerMinute < 2 ^ 63)
    (hk : 1 ≤ k) (hW : r.Words < 2 ^ 53) :
    (r.Words = k * (applyOptions opts).WordsPerMinute → k ≤ 153722867 →
      r.Duration = k * minute) ∧
    (r.Words = k * (applyOptions opts).WordsPerMinute + 1 → k + 1 ≤ 153722867 →
      r.Duration = (k + 1) * minute) := by
  have hcases := Estimate_done impl text opts r hret
  generalize (applyOptions opts).WordsPerMinute = S at *
  have hkS : 0 < k * S := Int.mul_pos (by omega) hS
  rcases hcases with ⟨_, hr⟩ | ⟨hw, hr⟩
  · subst hr
    constructor
    · intro h _
      have : (0 : Int) = k * S := h
      omega
    · intro h _
      have : (0 : Int) = k * S + 1 := h
      omega
  · generalize wordStarts _ text = w at hr
    have hwords : r.Words = (w : Int) := by rw [hr]; rfl
    rw [hwords] at hW ⊢
    constructor
    · intro h hk2
      have hN : ((w : Int) + S - 1) / S = k := by rw [h]; exact ceilDiv_mul k S hS
      rw [hr, readingStats_int impl w S (by omega) hW hS hS64 (by omega), hN]
    · intro h hk2
      have hN : ((w : Int) + S - 1) / S = k + 1 := by rw [h]; exact ceilDiv_mul_succ k S hS
      rw [hr, readingStats_int impl w S (by omega) hW hS hS64 (by omega), hN]

/-- C10, amended, on the text `a b c d` read at 2 words per minute, `k = 2`. -/
theorem C10_minute_boundary_witness :
    (Estimate F64.amd64 (ascii "a b c d") [WordsPerMinute 2] =
        .done { Text := "2 min read", Duration := 120000000000, Words := 4 } ∧
      0 < (applyOptions [WordsPerMinute 2]).WordsPerMinute ∧
      (applyOptions [WordsPerMinute 2]).WordsPerMinute < 2 ^ 63 ∧
      (1 : Int) ≤ 2 ∧ (4 : Int) < 2 ^ 53) ∧
    (((4 : Int) = 2 * (applyOptions [WordsPerMinute 2]).WordsPerMinute → (2 : Int) ≤ 153722867 →
      (120000000000 : Int) = 2 * minute) ∧
    ((4 : Int) = 2 * (applyOptions [WordsPerMinute 2]).WordsPerMinute + 1 →
      (2 : Int) + 1 ≤ 153722867 → (120000000000 : Int) = (2 + 1) * minute)) :=
  ⟨⟨by decide, by decide, by decide, by decide, by decide⟩,
    C10_minute_boundary F64.amd64 (ascii "a b c d") [WordsPerMinute 2]
      { Text := "2 min read", Duration := 120000000000, Words := 4 } 2
      (by decide) (by decide) (by decide) (by decide) (by decide)⟩

end Claims2

/-! ## Options, progress of the counting loop, index reads, texts of words -/

section Options

/-- The options after one more option: the earlier ones, updated by it. -/
theorem applyOptions_append (opts : List OptionFn) (opt : OptionFn) :
    applyOptions (opts ++ [opt]) = opt (applyOptions opts) := by
  unfold applyOptions
  rw [List.foldl_append]
  rfl

theorem defaultWordBoundFunc_iff (b : Byte) :
    defaultWordBoundFunc b = true ↔ b = 32 ∨ b = 10 ∨ b = 13 ∨ b = 9 := by
  unfold defaultWordBoundFunc
  simp [Bool.or_eq_true, beq_iff_eq, or_assoc]

end Options

section Bounds

variable (bound : WordBoundFunc)

/-- Two word starts are at least two bytes apart: a text of `n` bytes has at most
`(n + 1) / 2` of them. -/
theorem runs_le (prev : Bool) (text : List Byte) :
    2 * runs bound prev text ≤ text.length + (if prev = true then 1 else 0) := by
  induction text generalizing prev with
  | nil => simp [runs]
  | cons b rest ih =>
    rw [runs, List.length_cons]
    have h := ih (bound b)
    cases hb : bound b <;> cases prev <;> simp [hb] at h ⊢ <;> omega

end Bounds

section Progress

variable (bound : WordBoundFunc) (text : List Byte)

/-- One iteration of the counting loop, entered at a cursor `i` up to `last`: the two inner
loops end normally and leave the cursor at least one position further, at most at
`last + 1`, whether byte `i` is a word bound or not. -/
theorem iteration_progress (last inner i : Nat) (hi : i ≤ last) (hl : last < text.length)
    (hinner : last + 1 - i < inner) :
    ∃ i1 i2 : Nat, skipWord bound text (last : Int) inner (i : Int) = .done (i1 : Int) ∧
      skipBounds bound text (last : Int) inner (i1 : Int) = .done (i2 : Int) ∧
      i ≤ i1 ∧ i1 ≤ i2 ∧ i + 1 ≤ i2 ∧ i2 ≤ last + 1 := by
  obtain ⟨i1, a1, a2, a3, a4⟩ := exists_word_end bound text last i (by omega) hl
  obtain ⟨i2, b1, b2, b3, b4⟩ := exists_bounds_end bound text last i1 a2 hl
  refine ⟨i1, i2, skipWord_done bound text last inner i i1 a1 a2 a3 a4 (by omega),
    skipBounds_done bound text last inner i1 i2 b1 b2 b3 b4 (by omega), a1, b1, ?_, b2⟩
  by_contra hc
  have e1 : i1 = i := by omega
  have e2 : i2 = i := by omega
  subst e1
  subst e2
  rcases a4 with h | h
  · omega
  · rcases b4 with h' | h'
    · omega
    · exact inWord_not_isBound h' h

/-- The counting loop entered at any cursor `i`, with the budget of at least
`last + 1 - i` iterations and the final test: it ends normally and adds at most
`last + 1 - i` to the counter (nothing when the cursor is behind `last`). -/
theorem countWords_total (last inner fuel i : Nat) (words : Int) (hl : last < text.length)
    (hinner : last + 1 - i < inner) (hf : last + 1 - i < fuel) :
    ∃ c : Nat, countWords bound text (last : Int) inner fuel (i : Int) words =
      .done (words + (c : Int)) ∧ c ≤ last + 1 - i := by
  induction fuel generalizing i words with
  | zero => omega
  | succ fuel ih =>
    unfold countWords
    by_cases hle : i ≤ last
    · have hle2 : (i : Int) ≤ (last : Int) := by omega
      obtain ⟨i1, i2, h1, h2, _, _, h3, h4⟩ := iteration_progress bound text last inner i hle hl hinner
      obtain ⟨c, hc1, hc2⟩ := ih i2 (words + 1) (by omega) (by omega)
      rw [if_pos hle2, h1]
      simp only
      rw [h2]
      simp only
      refine ⟨c + 1, ?_, by omega⟩
      rw [hc1]
      congr 1
      push_cast
      ring
    · have hle2 : ¬ ((i : Int) ≤ (last : Int)) := by omega
      rw [if_neg hle2]
      exact ⟨0, by simp, by omega⟩

end Progress

section Reads

/-- The reads of `Estimate` on the text ` ab  c `: the leading loop reads `0, 1`, the
trailing loop `6, 5`, the counting loop `1, 2, 3` and `3, 4, 5` for the first word, `5` for
the second. -/
theorem estimateReads_example :
    estimateReads (ascii " ab  c ") [] = [0, 1, 6, 5, 1, 2, 3, 3, 4, 5, 5] := by
  decide

variable (bound : WordBoundFunc) (text : List Byte)

theorem skipLeadingReads_fst (fuel : Nat) (i : Int) :
    (skipLeadingReads bound text fuel i).1 = skipLeading bound text fuel i := by
  induction fuel generalizing i with
  | zero => rfl
  | succ fuel ih =>
    unfold skipLeadingReads skipLeading withRead
    cases byteAt text i with
    | none => rfl
    | some b =>
      by_cases hb : bound b = true
      · simp only [hb, if_true]; exact ih (i + 1)
      · simp only [hb]; rfl

theorem skipTrailingReads_fst (fuel : Nat) (i : Int) :
    (skipTrailingReads bound text fuel i).1 = skipTrailing bound text fuel i := by
  induction fuel generalizing i with
  | zero => rfl
  | succ fuel ih =>
    unfold skipTrailingReads skipTrailing withRead
    cases byteAt text i with
    | none => rfl
    | some b =>
      by_cases hb : bound b = true
      · simp only [hb, if_true]; exact ih (i - 1)
      · simp only [hb]; rfl

theorem skipWordReads_fst (last : Int) (fuel : Nat) (i : Int) :
    (skipWordReads bound text last fuel i).1 = skipWord bound text last fuel i := by
  induction fuel generalizing i with
  | zero => rfl
  | succ fuel ih =>
    unfold skipWordReads skipWord withRead
    by_cases hle : i ≤ last
    · rw [if_pos hle, if_pos hle]
      cases byteAt text i with
      | none => rfl
      | some b =>
        by_cases hb : (!bound b) = true
        · simp only [hb, if_true]; exact ih (i + 1)
        · simp only [hb]; rfl
    · rw [if_neg hle, if_neg hle]

theorem skipBoundsReads_eq (last : Int) (fuel : Nat) (i : Int) :
    skipBoundsReads bound text last fuel i =
      skipWordReads (fun b => !bound b) text last fuel i := by
  induction fuel generalizing i with
  | zero => rfl
  | succ fuel ih =>
    unfold skipBoundsReads skipWordReads
    split
    · cases byteAt text i with
      | none => rfl
      | some b => simp [ih]
    · rfl

theorem skipBoundsReads_fst (last : Int) (fuel : Nat) (i : Int) :
    (skipBoundsReads bound text last fuel i).1 = skipBounds bound text last fuel i := by
  rw [skipBoundsReads_eq, skipBounds_eq_skipWord, skipWordReads_fst]

/-- The first inner loop reads between its cursor and `last` only. -/
theorem skipWordReads_range (last : Int) (fuel : Nat) (i : Int) :
    ∀ j ∈ (skipWordReads bound text last fuel i).2, i ≤ j ∧ j ≤ last := by
  induction fuel generalizing i with
  | zero => intro j hj; simp [skipWordReads] at hj
  | succ fuel ih =>
    unfold skipWordReads withRead
    by_cases hle : i ≤ last
    · rw [if_pos hle]
      intro j hj
      simp only [List.mem_cons] at hj
      rcases hj with e | hj
      · subst e; exact ⟨le_rfl, hle⟩
      · cases hb : byteAt text i with
        | none => rw [hb] at hj; simp at hj
        | some b =>
          rw [hb] at hj
          by_cases hc : (!bound b) = true
          · simp only [hc, if_true] at hj
            have := ih (i + 1) j hj
            omega
          · simp only [hc] at hj
            simp at hj
    · rw [if_neg hle]
      intro j hj; simp at hj

theorem skipBoundsReads_range (last : Int) (fuel : Nat) (i : Int) :
    ∀ j ∈ (skipBoundsReads bound text last fuel i).2, i ≤ j ∧ j ≤ last := by
  rw [skipBoundsReads_eq]
  exact skipWordReads_range _ text last fuel i

/-- The first inner loop never moves its cursor back. -/
theorem skipWord_mono (last : Int) (fuel : Nat) (i j : Int)
    (h : skipWord bound text last fuel i = .done j) : i ≤ j := by
  induction fuel generalizing i with
  | zero => simp [skipWord] at h
  | succ fuel ih =>
    unfold skipWord at h
    by_cases hle : i ≤ last
    · rw [if_pos hle] at h
      cases hb : byteAt text i with
      | none => rw [hb] at h; simp at h
      | some b =>
        rw [hb] at h
        by_cases hc : (!bound b) = true
        · simp only [hc, if_true] at h
          have := ih (i + 1) h
          omega
        · simp only [hc] at h
          injection h with h
          omega
    · rw [if_neg hle] at h
      injection h with h
      omega

theorem skipBounds_mono (last : Int) (fuel : Nat) (i j : Int)
    (h : skipBounds bound text last fuel i = .done j) : i ≤ j := by
  rw [skipBounds_eq_skipWord] at h
  exact skipWord_mono _ text last fuel i j h

end Reads

section Reads2

variable (bound : WordBoundFunc) (text : List Byte)

theorem countWordsReads_fst (last : Int) (inner fuel : Nat) (i words : Int) :
    (countWordsReads bound text last inner fuel i words).1 =
      countWords bound text last inner fuel i words := by
  induction fuel generalizing i words with
  | zero => rfl
  | succ fuel ih =>
    unfold countWordsReads countWords
    by_cases hle : i ≤ last
    · rw [if_pos hle, if_pos hle, ← skipWordReads_fst]
      rcases h1 : skipWordReads bound text last inner i with ⟨o1, t1⟩
      cases o1 with
      | done i1 =>
        simp only
        rw [← skipBoundsReads_fst]
        rcases h2 : skipBoundsReads bound text last inner i1 with ⟨o2, t2⟩
        cases o2 with
        | done i2 => simp only; exact ih i2 (words + 1)
        | panic => rfl
        | outOfFuel => rfl
      | panic => rfl
      | outOfFuel => rfl
    · rw [if_neg hle, if_neg hle]

/-- The counting loop reads between its cursor and `last` only. -/
theorem countWordsReads_range (last : Int) (inner fuel : Nat) (i words : Int) :
    ∀ j ∈ (countWordsReads bound text last inner fuel i words).2, i ≤ j ∧ j ≤ last := by
  induction fuel generalizing i words with
  | zero => intro j hj; simp [countWordsReads] at hj
  | succ fuel ih =>
    unfold countWordsReads
    by_cases hle : i ≤ last
    · rw [if_pos hle]
      have r1 := skipWordReads_range bound text last inner i
      have f1 := skipWordReads_fst bound text last inner i
      rcases h1 : skipWordReads bound text last inner i with ⟨o1, t1⟩
      rw [h1] at r1 f1
      simp only at r1 f1
      cases o1 with
      | done i1 =>
        have m1 : i ≤ i1 := skipWord_mono bound text last inner i i1 f1.symm
        have r2 := skipBoundsReads_range bound text last inner i1
        have f2 := skipBoundsReads_fst bound text last inner i1
        simp only
        rcases h2 : skipBoundsReads bound text last inner i1 with ⟨o2, t2⟩
        rw [h2] at r2 f2
        simp only at r2 f2
        cases o2 with
        | done i2 =>
          have m2 : i1 ≤ i2 := skipBounds_mono bound text last inner i1 i2 f2.symm
          intro j hj
          simp only [List.mem_append] at hj
          rcases hj with (hj | hj) | hj
          · exact r1 j hj
          · have := r2 j hj; omega
          · have := ih i2 (words + 1) j hj; omega
        | panic =>
          intro j hj
          simp only [List.mem_append] at hj
          rcases hj with hj | hj
          · exact r1 j hj
          · have := r2 j hj; omega
        | outOfFuel =>
          intro j hj
          simp only [List.mem_append] at hj
          rcases hj with hj | hj
          · exact r1 j hj
          · have := r2 j hj; omega
      | panic => exact r1
      | outOfFuel => exact r1
    · rw [if_neg hle]
      intro j hj; simp at hj

/-- The leading loop, run up to the first byte that is not a word bound, reads the
indices from its cursor to that byte. -/
theorem skipLeadingReads_range (fuel i s : Nat) (his : i ≤ s)
    (hb : ∀ k, i ≤ k → k < s → IsBound bound text k) (hs : InWord bound text s) :
    ∀ j ∈ (skipLeadingReads bound text fuel (i : Int)).2, (i : Int) ≤ j ∧ j ≤ (s : Int) := by
  induction fuel generalizing i with
  | zero => intro j hj; simp [skipLeadingReads] at hj
  | succ fuel ih =>
    unfold skipLeadingReads withRead
    rw [byteAt_natCast]
    intro j hj
    simp only [List.mem_cons] at hj
    rcases hj with e | hj
    · subst e; omega
    · rcases Nat.eq_or_lt_of_le his with h | h
      · subst h
        obtain ⟨b, hb1, hb2⟩ := inWord_byte hs
        simp [hb1, hb2] at hj
      · obtain ⟨b, hb1, hb2⟩ := isBound_byte (hb i le_rfl h)
        simp only [hb1, hb2, if_true] at hj
        have hc : (i : Int) + 1 = ((i + 1 : Nat) : Int) := by omega
        rw [hc] at hj
        have := ih (i + 1) (by omega) (fun k h1 h2 => hb k (by omega) h2) j hj
        omega

/-- The trailing loop, run down to the last byte that is not a word bound, reads the
indices from its cursor down to that byte. -/
theorem skipTrailingReads_range (fuel l e : Nat) (hel : e ≤ l)
    (hb : ∀ k, e < k → k ≤ l → IsBound bound text k) (he : InWord bound text e) :
    ∀ j ∈ (skipTrailingReads bound text fuel (l : Int)).2, (e : Int) ≤ j ∧ j ≤ (l : Int) := by
  induction fuel generalizing l with
  | zero => intro j hj; simp [skipTrailingReads] at hj
  | succ fuel ih =>
    unfold skipTrailingReads withRead
    rw [byteAt_natCast]
    intro j hj
    simp only [List.mem_cons] at hj
    rcases hj with e' | hj
    · subst e'; omega
    · rcases Nat.eq_or_lt_of_le hel with h | h
      · subst h
        obtain ⟨b, hb1, hb2⟩ := inWord_byte he
        simp [hb1, hb2] at hj
      · obtain ⟨b, hb1, hb2⟩ := isBound_byte (hb l h le_rfl)
        simp only [hb1, hb2, if_true] at hj
        have hc : (l : Int) - 1 = ((l - 1 : Nat) : Int) := by omega
        rw [hc] at hj
        have := ih (l - 1) (by omega) (fun k h1 h2 => hb k h1 (by omega)) j hj
        omega

/-- The traced run of the three loops is the run of `Estimate`. -/
theorem countReads_fst (impl : F64 → Int) (opts : List OptionFn) (hne : text ≠ []) :
    Estimate impl text opts =
      match (countReads text opts).1 with
      | .done words => .done (readingStats impl words (applyOptions opts).WordsPerMinute)
      | .panic => .panic
      | .outOfFuel => .outOfFuel := by
  have hlen : ¬ (text.length = 0) := fun h0 => hne (List.length_eq_zero.mp h0)
  unfold Estimate countReads
  rw [if_neg hlen]
  simp only
  rw [← skipLeadingReads_fst]
  rcases h1 : skipLeadingReads (applyOptions opts).WordBound text (text.length + 1) 0
    with ⟨o1, t1⟩
  cases o1 with
  | done start =>
    simp only
    rw [← skipTrailingReads_fst]
    rcases h2 : skipTrailingReads (applyOptions opts).WordBound text (text.length + 1)
      ((text.length : Int) - 1) with ⟨o2, t2⟩
    cases o2 with
    | done last =>
      simp only
      rw [countWordsReads_fst]
    | panic => rfl
    | outOfFuel => rfl
  | panic => rfl
  | outOfFuel => rfl

/-- On a text with a byte that is not a word bound, every index read by the three loops
lies inside the text. -/
theorem countReads_range (opts : List OptionFn)
    (h : ∃ k, InWord (applyOptions opts).WordBound text k) :
    ∀ j ∈ (countReads text opts).2, 0 ≤ j ∧ j ≤ (text.length : Int) - 1 := by
  obtain ⟨s, e, hse, hen, hs, hsb, he, heb, h1, h2, _⟩ := loops_done _ text h
  have r1 := skipLeadingReads_range (applyOptions opts).WordBound text (text.length + 1) 0 s
    (Nat.zero_le _) (fun k _ hk => hsb k hk) hs
  have r2 := skipTrailingReads_range (applyOptions opts).WordBound text (text.length + 1)
    (text.length - 1) e (by omega) (fun k hk1 hk2 => heb k hk1 (by omega)) he
  have hc : ((text.length - 1 : Nat) : Int) = (text.length : Int) - 1 := by omega
  rw [hc] at r2
  simp only [Nat.cast_zero] at r1
  have f1 := skipLeadingReads_fst (applyOptions opts).WordBound text (text.length + 1) 0
  have f2 := skipTrailingReads_fst (applyOptions opts).WordBound text (text.length + 1)
    ((text.length : Int) - 1)
  rw [h1] at f1
  rw [h2] at f2
  unfold countReads
  simp only
  rcases g1 : skipLeadingReads (applyOptions opts).WordBound text (text.length + 1) 0
    with ⟨o1, t1⟩
  rw [g1] at f1 r1
  simp only at f1 r1
  subst f1
  simp only
  rcases g2 : skipTrailingReads (applyOptions opts).WordBound text (text.length + 1)
    ((text.length : Int) - 1) with ⟨o2, t2⟩
  rw [g2] at f2 r2
  simp only at f2 r2
  subst f2
  simp only
  have r3 := countWordsReads_range (applyOptions opts).WordBound text (e : Int)
    (text.length + 1) (text.length + 1) (s : Int) 0
  intro j hj
  simp only [List.mem_append] at hj
  rcases hj with (hj | hj) | hj
  · have := r1 j hj; omega
  · have := r2 j hj; omega
  · have := r3 j hj; omega

end Reads2

section WordTexts

theorem not_bound_of_isAlnum (b : Byte) (h : IsAlnum b) : defaultWordBoundFunc b = false := by
  cases hb : defaultWordBoundFunc b with
  | false => rfl
  | true =>
    rcases (defaultWordBoundFunc_iff b).1 hb with e | e | e | e <;> subst e <;>
      exact absurd h (by decide)

/-- The word starts of a text of words of `a-z`, `A-Z`, `0-9`, each followed by a space:
one for each word. -/
theorem runs_spacedText (ws : List (List Byte))
    (h : ∀ w ∈ ws, w ≠ [] ∧ ∀ b ∈ w, IsAlnum b) :
    runs defaultWordBoundFunc true (spacedText ws) = ws.length := by
  induction ws with
  | nil => rfl
  | cons w ws ih =>
    obtain ⟨hne, hal⟩ := h w (List.mem_cons_self _ _)
    have hnb : ∀ b ∈ w, defaultWordBoundFunc b = false :=
      fun b hb => not_bound_of_isAlnum b (hal b hb)
    have hlast : endsOpen defaultWordBoundFunc true w = false := by
      unfold endsOpen
      rw [List.getLast?_eq_getLast _ hne]
      exact hnb _ (List.getLast_mem hne)
    have h32 : defaultWordBoundFunc 32 = true := by decide
    rw [spacedText, runs_append, runs_of_no_bounds _ true w hnb, hlast, runs, h32,
      ih (fun w' hw' => h w' (List.mem_cons_of_mem _ hw')), List.length_cons]
    simp [hne]
    omega

theorem alnum_words_of_all (ws : List (List Byte))
    (h : ws.all (fun w => !w.isEmpty && w.all (fun b => decide (IsAlnum b))) = true) :
    ∀ w ∈ ws, w ≠ [] ∧ ∀ b ∈ w, IsAlnum b := by
  intro w hw
  have h1 := List.all_eq_true.mp h w hw
  simp only [Bool.and_eq_true, Bool.not_eq_true', List.all_eq_true, decide_eq_true_eq] at h1
  refine ⟨fun h0 => ?_, h1.2⟩
  rw [h0] at h1
  simp at h1

theorem applyOptions_nil :
    applyOptions [] = { WordsPerMinute := 200, WordBound := defaultWordBoundFunc } := rfl

/-- The result of `Estimate` with no options on a text of words of `a-z`, `A-Z`, `0-9`, each
followed by a space. -/
theorem Estimate_spacedText (impl : F64 → Int) (ws : List (List Byte)) (hne : ws ≠ [])
    (h : ∀ w ∈ ws, w ≠ [] ∧ ∀ b ∈ w, IsAlnum b) :
    Estimate impl (spacedText ws) [] = .done (readingStats impl (ws.length : Int) 200) := by
  have hex : ∃ b ∈ spacedText ws, defaultWordBoundFunc b = false := by
    cases ws with
    | nil => exact absurd rfl hne
    | cons w ws =>
      obtain ⟨hw, hal⟩ := h w (List.mem_cons_self _ _)
      cases w with
      | nil => exact absurd rfl hw
      | cons x w =>
        refine ⟨x, ?_, not_bound_of_isAlnum x (hal x (List.mem_cons_self _ _))⟩
        rw [spacedText]
        exact List.mem_append_left _ (List.mem_cons_self _ _)
  rw [Estimate_runs impl defaultWordBoundFunc (spacedText ws) [] rfl hex, runs_spacedText ws h]
  rfl

/-- The result of `Estimate` with no options on `n` words `a`, each followed by a space. -/
theorem Estimate_replicate (impl : F64 → Int) (n : Nat) (hn : 0 < n) :
    Estimate impl (spacedText (List.replicate n [97])) [] =
      .done (readingStats impl (n : Int) 200) := by
  have h := Estimate_spacedText impl (List.replicate n [97])
    (by intro h; have := congrArg List.length h; simp at this; omega)
    (by intro w hw
        rw [List.eq_of_mem_replicate hw]
        exact ⟨by simp, by intro b hb; rw [List.mem_singleton.mp hb]; decide⟩)
  rw [List.length_replicate] at h
  exact h

set_option maxRecDepth 100000 in
theorem readingStats_overflow_d :
    readingStats F64.amd64 30744573600 200 =
      { Text := "153722868 min read", Duration := -9223372036854775808,
        Words := 30744573600 } := by
  decide

theorem Estimate_congr (impl : F64 → Int) (text : List Byte) (opts1 opts2 : List OptionFn)
    (h : applyOptions opts1 = applyOptions opts2) :
    Estimate impl text opts1 = Estimate impl text opts2 := by
  unfold Estimate
  simp only [h]

/-- The field `Words` of the reading time stats is the word count they are given. -/
theorem readingStats_words (impl : F64 → Int) (W S : Int) :
    (readingStats impl W S).Words = W := rfl

theorem alnum_replicate (n : Nat) (w : List Byte) (hw : w ≠ [])
    (h : w.all (fun b => decide (IsAlnum b)) = true) :
    ∀ v ∈ List.replicate n w, v ≠ [] ∧ ∀ b ∈ v, IsAlnum b := by
  intro v hv
  rw [List.eq_of_mem_replicate hv]
  refine ⟨hw, fun b hb => ?_⟩
  have h1 := List.all_eq_true.mp h b hb
  simpa using h1

end WordTexts

/-! ## The claims, continued -/

section Claims3

/-- C11, as stated, fails in two ways. On 30744573600 words `a`, each followed by a space,
and no options, the minutes are `ceil(n / 200) = 153722868`, more than a `time.Duration`
holds, and (on amd64) the field `Duration` is the least 64-bit integer. On
`2^53 + 9 = 9007199254741001` such words the word count is rounded by the conversion to
`float64`, and `Text` shows `45035996273705` where `ceil(n / 200)` is `45035996273706`. -/
theorem C11_counterexample :
    (Estimate F64.amd64 (spacedText (List.replicate 30744573600 [97])) [] =
        .done { Text := "153722868 min read", Duration := -9223372036854775808,
                Words := 30744573600 } ∧
      (-9223372036854775808 : Int) ≠ (30744573600 + 199) / 200 * minute) ∧
    (Estimate F64.amd64 (spacedText (List.replicate 9007199254741001 [97])) [] =
        .done { Text := "45035996273705 min read", Duration := -9223372036854775808,
                Words := 9007199254741001 } ∧
      "45035996273705 min read" ≠
        toString (((9007199254741001 : Int) + 199) / 200) ++ " min read") :=
  ⟨⟨by rw [Estimate_replicate F64.amd64 30744573600 (by norm_num)]
       exact congrArg Outcome.done readingStats_overflow_d,
    by decide⟩,
   ⟨by rw [Estimate_replicate F64.amd64 9007199254741001 (by norm_num)]
       exact congrArg Outcome.done readingStats_inexact_c,
    by decide⟩⟩

/-- C11, amended. For every `n >= 1` and every sequence of `n` words, none empty, made only
of the bytes `a-z`, `A-Z`, `0-9`, `Estimate` with no options on the text formed by writing
each word followed by one space returns, with `Words = n`, whatever `n`; with `Text` = the
decimal rendering of `ceil(n / 200)` followed by `" min read"` if `n` is below `2^53`; and
with `Duration` = `ceil(n / 200)` minutes if `n` is at most `30744573400` (the largest `n`
for which `ceil(n / 200)` minutes fit in a `time.Duration`); `n = 300` gives 2 minutes and
`n = 500` gives 3 minutes. -/
theorem C11_spaced_words (impl : F64 → Int) (ws : List (List Byte)) (hn : 1 ≤ ws.length)
    (h : ∀ w ∈ ws, w ≠ [] ∧ ∀ b ∈ w, IsAlnum b) :
    (∃ r, Estimate impl (spacedText ws) [] = .done r ∧
      r.Words = (ws.length : Int) ∧
      (ws.length < 2 ^ 53 →
        r.Text = toString (((ws.length : Int) + 199) / 200) ++ " min read") ∧
      (ws.length ≤ 30744573400 →
        r.Duration = ((ws.length : Int) + 199) / 200 * minute)) ∧
    (ws.length ≤ 30744573400 → Estimate impl (spacedText ws) [] =
      .done { Text := toString (((ws.length : Int) + 199) / 200) ++ " min read"
              Duration := ((ws.length : Int) + 199) / 200 * minute
              Words := (ws.length : Int) }) ∧
    (ws.length = 300 → Estimate impl (spacedText ws) [] =
      .done { Text := "2 min read", Duration := 2 * minute, Words := 300 }) ∧
    (ws.length = 500 → Estimate impl (spacedText ws) [] =
      .done { Text := "3 min read", Duration := 3 * minute, Words := 500 }) := by
  have hne : ws ≠ [] := by
    intro h0; subst h0; simp at hn
  have hE := Estimate_spacedText impl ws hne h
  have e : (ws.length : Int) + 200 - 1 = (ws.length : Int) + 199 := by ring
  have hT : ws.length < 2 ^ 53 → (readingStats impl (ws.length : Int) 200).Text =
      toString (((ws.length : Int) + 199) / 200) ++ " min read" := by
    intro h53
    rw [readingStats_text impl (ws.length : Int) 200 (by omega) (by omega) (by decide)
      (by decide), e]
  have hS : ws.length ≤ 30744573400 → readingStats impl (ws.length : Int) 200 =
      { Text := toString (((ws.length : Int) + 199) / 200) ++ " min read"
        Duration := ((ws.length : Int) + 199) / 200 * minute
        Words := (ws.length : Int) } := by
    intro hmax
    rw [readingStats_int impl (ws.length : Int) 200 (by omega) (by omega) (by decide)
      (by decide) (by omega), e]
  refine ⟨⟨_, hE, rfl, hT, fun hmax => ?_⟩, fun hmax => ?_, fun h3 => ?_, fun h5 => ?_⟩
  · rw [hS hmax]
  · rw [hE, hS hmax]
  · rw [hE, hS (by omega), h3]; rfl
  · rw [hE, hS (by omega), h5]; rfl

/-- C11, amended, on 300 words `ab`. -/
theorem C11_spaced_words_witness :
    (1 ≤ (List.replicate 300 (ascii "ab")).length ∧
      (∀ w ∈ List.replicate 300 (ascii "ab"), w ≠ [] ∧ ∀ b ∈ w, IsAlnum b)) ∧
    ((∃ r, Estimate F64.amd64 (spacedText (List.replicate 300 (ascii "ab"))) [] = .done r ∧
      r.Words = ((List.replicate 300 (ascii "ab")).length : Int) ∧
      ((List.replicate 300 (ascii "ab")).length < 2 ^ 53 →
        r.Text = toString ((((List.replicate 300 (ascii "ab")).length : Int) + 199) / 200) ++
          " min read") ∧
      ((List.replicate 300 (ascii "ab")).length ≤ 30744573400 →
        r.Duration = (((List.replicate 300 (ascii "ab")).length : Int) + 199) / 200 * minute)) ∧
    ((List.replicate 300 (ascii "ab")).length ≤ 30744573400 →
      Estimate F64.amd64 (spacedText (List.replicate 300 (ascii "ab"))) [] =
      .done { Text := toString ((((List.replicate 300 (ascii "ab")).length : Int) + 199) / 200)
                ++ " min read"
              Duration := (((List.replicate 300 (ascii "ab")).length : Int) + 199) / 200 * minute
              Words := ((List.replicate 300 (ascii "ab")).length : Int) }) ∧
    ((List.replicate 300 (ascii "ab")).length = 300 →
      Estimate F64.amd64 (spacedText (List.replicate 300 (ascii "ab"))) [] =
        .done { Text := "2 min read", Duration := 2 * minute, Words := 300 }) ∧
    ((List.replicate 300 (ascii "ab")).length = 500 →
      Estimate F64.amd64 (spacedText (List.replicate 300 (ascii "ab"))) [] =
        .done { Text := "3 min read", Duration := 3 * minute, Words := 500 })) :=
  ⟨⟨le_of_le_of_eq (by decide : 1 ≤ 300) (List.length_replicate 300 (ascii "ab")).symm,
    alnum_replicate 300 (ascii "ab") (by decide) (by decide)⟩,
    C11_spaced_words F64.amd64 (List.replicate 300 (ascii "ab"))
      (le_of_le_of_eq (by decide : 1 ≤ 300) (List.length_replicate 300 (ascii "ab")).symm)
      (alnum_replicate 300 (ascii "ab") (by decide) (by decide))⟩

/-- C12. Options are applied from left to right and the last one wins: the options after
one more option `WordsPerMinute(b)` have the speed `b`; for every text that is not empty and
all integers `a` and `b`, `Estimate` with `WordsPerMinute(a), WordsPerMinute(b)` ends as
`Estimate` with `WordsPerMinute(b)` does, with the same `Result`. With the single option
`WordsPerMinute(S)`, `S` positive, the duration is computed with `S` instead of `200`: the
returned `Words` is the number of words of the text, `Duration` is the conversion to a
64-bit integer of `math.Ceil(math.Ceil(float64(Words) / float64(S))) * float64(time.Minute)`
and `Text` shows `math.Ceil(float64(Words) / float64(S))`; for fewer than `2^53` words and a
64-bit `S` that is `ceil(Words / S)` in `Text` and, if at most `153722867`, `ceil(Words / S)`
minutes in `Duration`. 200 words at 100 words per minute give "2 min read" and 2 minutes,
where the default speed gives "1 min read" and 1 minute. -/
theorem C12_last_option_wins (impl : F64 → Int) (text : List Byte) (a b S : Int)
    (hne : text ≠ []) (hS : 0 < S) :
    (∀ opts, (applyOptions (opts ++ [WordsPerMinute b])).WordsPerMinute = b) ∧
    Estimate impl text [WordsPerMinute a, WordsPerMinute b] =
      Estimate impl text [WordsPerMinute b] ∧
    (∀ r, Estimate impl text [WordsPerMinute S] = .done r →
      r.Words = (wordCount defaultWordBoundFunc text : Int) ∧
      r.Duration = F64.toInt impl
        (F64.mul (F64.ceil (F64.ceil (F64.div (F64.ofInt r.Words) (F64.ofInt S))))
          (F64.ofInt minute)) ∧
      r.Text = toString (F64.toInt impl
        (F64.ceil (F64.div (F64.ofInt r.Words) (F64.ofInt S)))) ++ " min read" ∧
      (r.Words < 2 ^ 53 → S < 2 ^ 63 →
        r.Text = toString ((r.Words + S - 1) / S) ++ " min read" ∧
        ((r.Words + S - 1) / S ≤ 153722867 →
          r.Duration = (r.Words + S - 1) / S * minute)) ∧
      (r.Words = 200 → S = 100 → r.Text = "2 min read" ∧ r.Duration = 2 * minute)) ∧
    Estimate impl (repeatWord 200) [WordsPerMinute 100] =
      .done { Text := "2 min read", Duration := 2 * minute, Words := 200 } ∧
    Estimate impl (repeatWord 200) [] =
      .done { Text := "1 min read", Duration := minute, Words := 200 } := by
  refine ⟨fun opts => ?_, Estimate_congr impl text _ _ rfl, fun r hr => ?_, ?_, ?_⟩
  · rw [applyOptions_append]; rfl
  · rcases Estimate_done impl text _ r hr with ⟨h0, _⟩ | ⟨hin, h1⟩
    · exact absurd h0 hne
    · rw [applyOptions_wordsPerMinute] at h1 hin
      simp only at h1 hin
      have hpos := wordStarts_pos _ text hin
      have hw : r.Words = (wordStarts defaultWordBoundFunc text : Int) := by rw [h1]; rfl
      refine ⟨by rw [hw, wordCount_eq_wordStarts], by rw [h1]; rfl, by rw [h1]; rfl,
        fun h53 h63 => ⟨?_, fun hN => ?_⟩, fun h200 h100 => ?_⟩
      · rw [hw] at h53 ⊢
        rw [h1]
        exact readingStats_text impl _ S (by omega) h53 hS h63
      · rw [hw] at h53 hN ⊢
        rw [h1]
        exact readingStats_duration impl _ S (by omega) h53 hS h63 hN
      · rw [hw] at h200
        rw [h1, h200, h100, (readingStats_test_speed impl).1]
        exact ⟨rfl, rfl⟩
  · rw [Estimate_repeatWord impl 200 100 (by decide)]
    exact congrArg Outcome.done (readingStats_test_speed impl).1
  · rw [Estimate_runs impl defaultWordBoundFunc (repeatWord 200) [] rfl
      ⟨97, by decide, by decide⟩, runs_repeatWord]
    exact congrArg Outcome.done (readingStats_test_speed impl).2

/-- C12 on the text of 200 words `a`, with `a = 7`, `b = 100`, `S = 100`. -/
theorem C12_last_option_wins_witness :
    (repeatWord 200 ≠ [] ∧ (0 : Int) < 100) ∧
    ((∀ opts, (applyOptions (opts ++ [WordsPerMinute 100])).WordsPerMinute = 100) ∧
    Estimate F64.amd64 (repeatWord 200) [WordsPerMinute 7, WordsPerMinute 100] =
      Estimate F64.amd64 (repeatWord 200) [WordsPerMinute 100] ∧
    (∀ r, Estimate F64.amd64 (repeatWord 200) [WordsPerMinute 100] = .done r →
      r.Words = (wordCount defaultWordBoundFunc (repeatWord 200) : Int) ∧
      r.Duration = F64.toInt F64.amd64
        (F64.mul (F64.ceil (F64.ceil (F64.div (F64.ofInt r.Words) (F64.ofInt 100))))
          (F64.ofInt minute)) ∧
      r.Text = toString (F64.toInt F64.amd64
        (F64.ceil (F64.div (F64.ofInt r.Words) (F64.ofInt 100)))) ++ " min read" ∧
      (r.Words < 2 ^ 53 → (100 : Int) < 2 ^ 63 →
        r.Text = toString ((r.Words + 100 - 1) / 100) ++ " min read" ∧
        ((r.Words + 100 - 1) / 100 ≤ 153722867 →
          r.Duration = (r.Words + 100 - 1) / 100 * minute)) ∧
      (r.Words = 200 → (100 : Int) = 100 →
        r.Text = "2 min read" ∧ r.Duration = 2 * minute)) ∧
    Estimate F64.amd64 (repeatWord 200) [WordsPerMinute 100] =
      .done { Text := "2 min read", Duration := 2 * minute, Words := 200 } ∧
    Estimate F64.amd64 (repeatWord 200) [] =
      .done { Text := "1 min read", Duration := minute, Words := 200 }) :=
  ⟨⟨by decide, by decide⟩,
    C12_last_option_wins F64.amd64 (repeatWord 200) 7 100 100 (by decide) (by decide)⟩

/-- C13. With no options `Estimate` uses the reading speed `200` and a word-bound predicate
that is true for exactly the four bytes space (`0x20`), tab (`0x09`), newline (`0x0A`) and
carriage return (`0x0D`); punctuation does not split words, and the two texts with a link
of the tests count 3 words each, read in one minute. -/
theorem C13_default_options (impl : F64 → Int) :
    (applyOptions []).WordsPerMinute = 200 ∧
    (∀ b : Byte, (applyOptions []).WordBound b = true ↔ b = 32 ∨ b = 9 ∨ b = 10 ∨ b = 13) ∧
    Estimate impl (ascii "word https://github.com/begmaroman word") [] =
      .done { Text := "1 min read", Duration := minute, Words := 3 } ∧
    Estimate impl (ascii "word [github](https://github.com/begmaroman) word") [] =
      .done { Text := "1 min read", Duration := minute, Words := 3 } := by
  have hstats : readingStats impl 3 200 =
      { Text := "1 min read", Duration := minute, Words := 3 } := by
    rw [readingStats_int impl 3 200 (by decide) (by decide) (by decide) (by decide) (by decide)]
    rfl
  refine ⟨rfl, fun b => ?_, ?_, ?_⟩
  · rw [applyOptions_nil]
    simp only
    rw [defaultWordBoundFunc_iff]
    constructor
    · rintro (h | h | h | h) <;> simp [h]
    · rintro (h | h | h | h) <;> simp [h]
  · rw [Estimate_runs impl defaultWordBoundFunc _ [] rfl ⟨119, by decide, by decide⟩,
      show runs defaultWordBoundFunc true (ascii "word https://github.com/begmaroman word") = 3
        by decide]
    exact congrArg Outcome.done hstats
  · rw [Estimate_runs impl defaultWordBoundFunc _ [] rfl ⟨119, by decide, by decide⟩,
      show runs defaultWordBoundFunc true
        (ascii "word [github](https://github.com/begmaroman) word") = 3 by decide]
    exact congrArg Outcome.done hstats

end Claims3

section Claims4

/-- C14. The word-counting loop always terminates: for every text, every word-bound
predicate and every start and end cursor inside the text, each iteration of the outer loop
(entered at a cursor `i` from `start` to `last`, on a word bound or not) ends normally and
advances the cursor by at least one position; so the loop, given the budget of
`last + 1 - start` iterations and the final test, ends normally, and the count `c` it adds
is at most `last + 1 - start` (the number of positions from `start` to `last`, zero when
`start` is behind `last`). -/
theorem C14_counting_loop_terminates (bound : WordBoundFunc) (text : List Byte)
    (start last : Nat) (hs : start < text.length) (hl : last < text.length)
    (inner fuel : Nat) (hinner : last + 1 - start < inner) (hfuel : last + 1 - start < fuel)
    (words : Int) :
    (∀ i : Nat, start ≤ i → i ≤ last →
      ∃ i1 i2 : Nat, skipWord bound text (last : Int) inner (i : Int) = .done (i1 : Int) ∧
        skipBounds bound text (last : Int) inner (i1 : Int) = .done (i2 : Int) ∧
        i + 1 ≤ i2 ∧ i2 ≤ last + 1) ∧
    ∃ c : Nat, countWords bound text (last : Int) inner fuel (start : Int) words =
      .done (words + (c : Int)) ∧ c ≤ last + 1 - start := by
  have _ := hs
  refine ⟨fun i h1 h2 => ?_, countWords_total bound text last inner fuel start words hl
    hinner hfuel⟩
  obtain ⟨i1, i2, a, b, _, _, c, d⟩ :=
    iteration_progress bound text last inner i h2 hl (by omega)
  exact ⟨i1, i2, a, b, c, d⟩

/-- C14 on the text ` a  b`, entered on the word bound at position `0`, up to position `4`. -/
theorem C14_counting_loop_terminates_witness :
    (0 < (ascii " a  b").length ∧ 4 < (ascii " a  b").length ∧ 4 + 1 - 0 < 6 ∧
      4 + 1 - 0 < 6) ∧
    ((∀ i : Nat, 0 ≤ i → i ≤ 4 →
      ∃ i1 i2 : Nat,
        skipWord defaultWordBoundFunc (ascii " a  b") ((4 : Nat) : Int) 6 (i : Int) =
          .done (i1 : Int) ∧
        skipBounds defaultWordBoundFunc (ascii " a  b") ((4 : Nat) : Int) 6 (i1 : Int) =
          .done (i2 : Int) ∧
        i + 1 ≤ i2 ∧ i2 ≤ 4 + 1) ∧
    ∃ c : Nat, countWords defaultWordBoundFunc (ascii " a  b") ((4 : Nat) : Int) 6 6
        ((0 : Nat) : Int) 0 = .done (0 + (c : Int)) ∧ c ≤ 4 + 1 - 0) :=
  ⟨⟨by decide, by decide, by decide, by decide⟩,
    C14_counting_loop_terminates defaultWordBoundFunc (ascii " a  b") 0 4 (by decide)
      (by decide) 6 6 (by decide) (by decide) 0⟩

/-- C15. The option `WordsPerMinute` performs no validation and touches one field only: for
every integer `n`, zero and negative included, and every `Options` value `o`, applying
`WordsPerMinute(n)` to `o` yields options whose `WordsPerMinute` is `n` and whose `WordBound`
is the one of `o`. -/
theorem C15_wordsPerMinute_frame (n : Int) (o : Options) :
    (WordsPerMinute n o).WordsPerMinute = n ∧ (WordsPerMinute n o).WordBound = o.WordBound :=
  ⟨rfl, rfl⟩

/-- C16. On a text with at least one byte that is not a word bound, `Estimate` is safe, for
every word-bound predicate: the leading loop stops at the first byte `s` that is not a word
bound, the trailing loop stops at the last one `e`, every index read by the two trim loops
and the counting loop lies in `0 .. len(text) - 1`, and the run does not panic: it
returns. -/
theorem C16_safe_reads (impl : F64 → Int) (p : WordBoundFunc) (text : List Byte)
    (opts : List OptionFn) (hp : (applyOptions opts).WordBound = p)
    (h : ∃ b ∈ text, p b = false) :
    ∃ s e : Nat,
      (InWord p text s ∧ ∀ k, k < s → IsBound p text k) ∧
      (InWord p text e ∧ ∀ k, e < k → k < text.length → IsBound p text k) ∧
      skipLeading p text (text.length + 1) 0 = .done (s : Int) ∧
      skipTrailing p text (text.length + 1) ((text.length : Int) - 1) = .done (e : Int) ∧
      (∀ i ∈ estimateReads text opts, 0 ≤ i ∧ i ≤ (text.length : Int) - 1) ∧
      Estimate impl text opts ≠ .panic ∧ ∃ r, Estimate impl text opts = .done r := by
  subst hp
  have hw := (exists_inWord_iff _ text).2 h
  obtain ⟨s, e, _, _, hs, hsb, he, heb, h1, h2, _⟩ := loops_done _ text hw
  have hE := Estimate_of_inWord text impl opts hw
  refine ⟨s, e, ⟨hs, hsb⟩, ⟨he, heb⟩, h1, h2, ?_, ?_, ⟨_, hE⟩⟩
  · have hlen : ¬ (text.length = 0) := by have := inWord_lt hs; omega
    unfold estimateReads
    rw [if_neg hlen]
    exact countReads_range text opts hw
  · rw [hE]
    intro hc
    cases hc

/-- C16 on the text ` ab  c ` with no options. -/
theorem C16_safe_reads_witness :
    ((applyOptions []).WordBound = defaultWordBoundFunc ∧
      ∃ b ∈ ascii " ab  c ", defaultWordBoundFunc b = false) ∧
    ∃ s e : Nat,
      (InWord defaultWordBoundFunc (ascii " ab  c ") s ∧
        ∀ k, k < s → IsBound defaultWordBoundFunc (ascii " ab  c ") k) ∧
      (InWord defaultWordBoundFunc (ascii " ab  c ") e ∧
        ∀ k, e < k → k < (ascii " ab  c ").length →
          IsBound defaultWordBoundFunc (ascii " ab  c ") k) ∧
      skipLeading defaultWordBoundFunc (ascii " ab  c ") ((ascii " ab  c ").length + 1) 0 =
        .done (s : Int) ∧
      skipTrailing defaultWordBoundFunc (ascii " ab  c ") ((ascii " ab  c ").length + 1)
        (((ascii " ab  c ").length : Int) - 1) = .done (e : Int) ∧
      (∀ i ∈ estimateReads (ascii " ab  c ") [],
        0 ≤ i ∧ i ≤ ((ascii " ab  c ").length : Int) - 1) ∧
      Estimate F64.amd64 (ascii " ab  c ") [] ≠ .panic ∧
      ∃ r, Estimate F64.amd64 (ascii " ab  c ") [] = .done r :=
  ⟨⟨rfl, 97, by decide, by decide⟩,
    C16_safe_reads F64.amd64 defaultWordBoundFunc (ascii " ab  c ") [] rfl
      ⟨97, by decide, by decide⟩⟩

/-- C17. Whenever `Estimate` returns for a text that is not empty, whatever the word-bound
predicate, the returned `Words` is at least `1` and at most `(len(text) + 1) / 2` (integer
division); so `Estimate` returns `Words = 0` for the empty text only. -/
theorem C17_words_bounds (impl : F64 → Int) (text : List Byte) (opts : List OptionFn)
    (r : Result) (hret : Estimate impl text opts = .done r) :
    (text ≠ [] → 1 ≤ r.Words ∧ r.Words ≤ ((text.length : Int) + 1) / 2) ∧
    (r.Words = 0 → text = []) := by
  rcases Estimate_done impl text opts r hret with ⟨h0, _⟩ | ⟨hw, hr⟩
  · exact ⟨fun hne => absurd h0 hne, fun _ => h0⟩
  · have hpos := wordStarts_pos _ text hw
    have hle := runs_le (applyOptions opts).WordBound true text
    rw [← wordStarts_eq_runs] at hle
    simp only [if_true] at hle
    have hwords : r.Words = (wordStarts (applyOptions opts).WordBound text : Int) := by
      rw [hr]; rfl
    rw [hwords]
    refine ⟨fun _ => ⟨by omega, by omega⟩, fun hz => ?_⟩
    omega

/-- C17 on the text `a b c` with no options. -/
theorem C17_words_bounds_witness :
    Estimate F64.amd64 (ascii "a b c") [] =
      .done { Text := "1 min read", Duration := 60000000000, Words := 3 } ∧
    ((ascii "a b c" ≠ [] → (1 : Int) ≤ 3 ∧ (3 : Int) ≤ (((ascii "a b c").length : Int) + 1) / 2) ∧
    ((3 : Int) = 0 → ascii "a b c" = [])) :=
  ⟨by decide,
    C17_words_bounds F64.amd64 (ascii "a b c") []
      { Text := "1 min read", Duration := 60000000000, Words := 3 } (by decide)⟩

/-- C18. Word counts add up across a separator: for every word-bound predicate `p`, all
texts `a` and `b` that each have a byte that is not a word bound, and every string `s` of
word bounds that is not empty, `Estimate` returns on `a ++ s ++ b`, on `a` and on `b`, and
the `Words` of the first is the sum of the `Words` of the other two. -/
theorem C18_words_add_up (impl : F64 → Int) (p : WordBoundFunc) (opts : List OptionFn)
    (hp : (applyOptions opts).WordBound = p) (a b s : List Byte)
    (ha : ∃ x ∈ a, p x = false) (hb : ∃ x ∈ b, p x = false)
    (hs : s ≠ []) (hsb : ∀ x ∈ s, p x = true) :
    ∃ r ra rb, Estimate impl (a ++ s ++ b) opts = .done r ∧
      Estimate impl a opts = .done ra ∧ Estimate impl b opts = .done rb ∧
      r.Words = ra.Words + rb.Words := by
  obtain ⟨x, hx1, hx2⟩ := ha
  have h1 : ∃ y ∈ a ++ s ++ b, p y = false :=
    ⟨x, List.mem_append_left _ (List.mem_append_left _ hx1), hx2⟩
  refine ⟨_, _, _, Estimate_runs impl p _ opts hp h1,
    Estimate_runs impl p a opts hp ⟨x, hx1, hx2⟩, Estimate_runs impl p b opts hp hb, ?_⟩
  show ((runs p true (a ++ s ++ b) : Nat) : Int) =
    ((runs p true a : Nat) : Int) + ((runs p true b : Nat) : Int)
  rw [runs_append, runs_append, runs_of_all_bounds p _ s hsb, endsOpen_append,
    endsOpen_of_all_bounds p _ s hsb (fun h => absurd h hs)]
  push_cast
  ring

/-- C18 on the texts `a b` and `c`, separated by two spaces. -/
theorem C18_words_add_up_witness :
    ((applyOptions []).WordBound = defaultWordBoundFunc ∧
      (∃ x ∈ ascii "a b", defaultWordBoundFunc x = false) ∧
      (∃ x ∈ ascii "c", defaultWordBoundFunc x = false) ∧
      ascii "  " ≠ [] ∧ ∀ x ∈ ascii "  ", defaultWordBoundFunc x = true) ∧
    ∃ r ra rb, Estimate F64.amd64 (ascii "a b" ++ ascii "  " ++ ascii "c") [] = .done r ∧
      Estimate F64.amd64 (ascii "a b") [] = .done ra ∧
      Estimate F64.amd64 (ascii "c") [] = .done rb ∧
      r.Words = ra.Words + rb.Words :=
  ⟨⟨rfl, ⟨97, by decide, by decide⟩, ⟨99, by decide, by decide⟩, by decide,
      all_bounds_of_all _ _ (by decide)⟩,
    C18_words_add_up F64.amd64 defaultWordBoundFunc [] rfl (ascii "a b") (ascii "c")
      (ascii "  ") ⟨97, by decide, by decide⟩ ⟨99, by decide, by decide⟩ (by decide)
      (all_bounds_of_all _ _ (by decide))⟩

/-- C19. The reading speed never influences the word count: for every text, every list of
options (whatever word-bound predicate it sets) and all positive speeds `s1` and `s2`,
whenever `Estimate` with `WordsPerMinute(s1)` as the last option returns, `Estimate` with
`WordsPerMinute(s2)` instead returns as well, with the same `Words`; and when the first
panics so does the second. -/
theorem C19_speed_does_not_change_words (impl : F64 → Int) (text : List Byte)
    (opts : List OptionFn) (s1 s2 : Int) (h1 : 0 < s1) (h2 : 0 < s2) :
    (∀ r1, Estimate impl text (opts ++ [WordsPerMinute s1]) = .done r1 →
      ∃ r2, Estimate impl text (opts ++ [WordsPerMinute s2]) = .done r2 ∧
        r2.Words = r1.Words) ∧
    (Estimate impl text (opts ++ [WordsPerMinute s1]) = .panic →
      Estimate impl text (opts ++ [WordsPerMinute s2]) = .panic) := by
  have _ := h1
  have _ := h2
  have hb : ∀ s, (applyOptions (opts ++ [WordsPerMinute s])).WordBound =
      (applyOptions opts).WordBound := by
    intro s; rw [applyOptions_append]; rfl
  constructor
  · intro r1 hr1
    rcases Estimate_done impl text _ r1 hr1 with ⟨h0, hr⟩ | ⟨hw, hr⟩
    · subst h0
      exact ⟨_, rfl, by rw [hr]⟩
    · rw [hb s1] at hw hr
      have hw2 : ∃ k, InWord (applyOptions (opts ++ [WordsPerMinute s2])).WordBound text k := by
        rw [hb s2]; exact hw
      refine ⟨_, Estimate_of_inWord text impl _ hw2, ?_⟩
      rw [hr, hb s2]
      rfl
  · intro hp
    by_cases hne : text = []
    · subst hne
      have : Estimate impl [] (opts ++ [WordsPerMinute s1]) =
          .done { Text := "0 min read", Duration := 0, Words := 0 } := rfl
      rw [this] at hp
      cases hp
    · by_cases hw : ∃ k, InWord (applyOptions opts).WordBound text k
      · have hw1 : ∃ k, InWord (applyOptions (opts ++ [WordsPerMinute s1])).WordBound text k := by
          rw [hb s1]; exact hw
        rw [Estimate_of_inWord text impl _ hw1] at hp
        cases hp
      · apply Estimate_of_all_bounds text impl _ hne
        intro k hk
        rw [hb s2]
        rcases inWord_or_isBound (applyOptions opts).WordBound text hk with h | h
        · exact absurd ⟨k, h⟩ hw
        · exact h

/-- C19 on the text `a b c`, with the speeds `1` and `300`. -/
theorem C19_speed_does_not_change_words_witness :
    ((0 : Int) < 1 ∧ (0 : Int) < 300) ∧
    ((∀ r1, Estimate F64.amd64 (ascii "a b c") ([] ++ [WordsPerMinute 1]) = .done r1 →
      ∃ r2, Estimate F64.amd64 (ascii "a b c") ([] ++ [WordsPerMinute 300]) = .done r2 ∧
        r2.Words = r1.Words) ∧
    (Estimate F64.amd64 (ascii "a b c") ([] ++ [WordsPerMinute 1]) = .panic →
      Estimate F64.amd64 (ascii "a b c") ([] ++ [WordsPerMinute 300]) = .panic)) :=
  ⟨⟨by decide, by decide⟩,
    C19_speed_does_not_change_words F64.amd64 (ascii "a b c") [] 1 300 (by decide)
      (by decide)⟩

/-- C20. The at-least-one-minute guarantee depends on a positive speed: on the text `word`
with the option `WordsPerMinute(-200)`, `Estimate` returns `Words = 1 > 0` together with
`Text = "0 min read"` and `Duration = 0`, because `math.Ceil` of the negative quotient
`1 / -200` is zero. -/
theorem C20_negative_speed (impl : F64 → Int) :
    Estimate impl (ascii "word") [WordsPerMinute (-200)] =
      .done { Text := "0 min read", Duration := 0, Words := 1 } ∧
    (0 : Int) < 1 ∧ (-200 : Int) < 0 ∧
    F64.ceil (F64.div (F64.ofInt 1) (F64.ofInt (-200))) = .finite 0 0 := by
  refine ⟨?_, by decide, by decide, by decide⟩
  rw [Estimate_runs impl defaultWordBoundFunc _ [WordsPerMinute (-200)] rfl
      ⟨119, by decide, by decide⟩,
    show runs defaultWordBoundFunc true (ascii "word") = 1 by decide]
  rfl

end Claims4

end ReadingTime
